import Mathlib

/-!
Parallel word count: bounded buffer, producers, consumers.

A shallow embedding of `common.h`, `producer.cpp`, `consumer.cpp` and
`aggregator.cpp`.

* C++ `char` data is a list of byte values (`Nat`, the value of
  `static_cast<unsigned char>(c)`); a `WordEntry` is read back as a C string.
* The processes are sequential programs that share one segment and three
  semaphores.  Each process is a record of its local variables and a program
  point; one step of one process performs one semaphore call or one access to
  the shared segment.  A run is a list of labels naming which process moves and
  how a blocking `sem_wait` returns.
* A `sem_wait` on a semaphore whose value is 0 has no step returning 0 (the
  process stays blocked); the step relation lets it return EINTR or fail at any
  time, and `interruptsFollowSigint` singles out the runs in which a wait is
  interrupted only after SIGINT was delivered to its process.  `sem_post`
  always succeeds.  SIGINT only runs the handler, which clears `running`.
* The C++ `int` counters of the producer and the consumer are unbounded
  integers: no run considered here comes near the 32-bit range.  The sums of
  the aggregator are taken modulo 2^32.  Output (`cout`, `perror`) and the
  sleeps are left out.
-/

namespace WordCount

/-! ## Constants of `common.h` -/

/-- A C++ string: the sequence of its bytes. -/
abbrev Word := List Nat

/-- Size of `WordEntry::word`. -/
def MAX_WORD_LENGTH : Nat := 255

/-- Number of slots of the shared buffer. -/
def MAX_WORD_ENTRIES : Nat := 10

/-- The bytes of `"__EOF__"`. -/
def EOF_SIGNAL_WORD : Word := [95, 95, 69, 79, 70, 95, 95]

/-- Bytes of an ASCII literal, to write test inputs legibly. -/
def ascii (s : String) : Word := s.toList.map Char.toNat

/-! ## `cleanWord` and the slot contents -/

/-- The C-locale `isalnum` on an `unsigned char` value. -/
def isalnum (c : Nat) : Bool :=
  (48 ≤ c && c ≤ 57) || (65 ≤ c && c ≤ 90) || (97 ≤ c && c ≤ 122)

/-- The C-locale `tolower` on an `unsigned char` value. -/
def tolower (c : Nat) : Nat :=
  if 65 ≤ c ∧ c ≤ 90 then c + 32 else c

/-- The loop of `cleanWord`: `cleaned` grows by the lowercased byte when the
byte is alphanumeric. -/
def cleanWord (rawWord : Word) : Word :=
  rawWord.foldl (fun cleaned c => if isalnum c then cleaned ++ [tolower c] else cleaned) []

/-- What a slot holds after `strncpy(e.word, s, MAX_WORD_LENGTH - 1)` and
`e.word[MAX_WORD_LENGTH - 1] = 0`, read back as a C string: at most 254 bytes
of `s`, cut at its first NUL. -/
def storeWord (s : Word) : Word :=
  (s.take (MAX_WORD_LENGTH - 1)).takeWhile (fun c => c != 0)

/-- The consumer's test `strcmp(currentEntry.word, EOF_SIGNAL_WORD) == 0`. -/
def isEofEntry (w : Word) : Bool :=
  w == EOF_SIGNAL_WORD

/-- A lowercase ASCII letter or a digit. -/
def isLowerOrDigit (c : Nat) : Bool :=
  (97 ≤ c && c ≤ 122) || (48 ≤ c && c ≤ 57)

/-- The claim's description of `cleanWord`: the alphanumeric bytes of the
input, in order, lowercased. -/
def cleanWordSpec (rawWord : Word) : Word :=
  (rawWord.filter isalnum).map tolower

/-! ## The shared segment and the semaphores -/

/-- The segment `SharedWordBuffer` with the values of the three named
semaphores.  `entries` has `MAX_WORD_ENTRIES` slots, each read as a C string. -/
structure Shared where
  initialized : Bool
  entries : List Word
  head : Nat
  tail : Nat
  active_producers_count : Int
  eof_signals_received : Int
  sem_empty : Int
  sem_full : Int
  sem_mutex : Int
deriving DecidableEq

/-- A segment just created by `shm_open` and `ftruncate` (all bytes zero) and
the semaphores as `sem_open` creates them: `MAX_WORD_ENTRIES`, 0 and 1. -/
def freshShared : Shared :=
  { initialized := false
    entries := List.replicate MAX_WORD_ENTRIES []
    head := 0
    tail := 0
    active_producers_count := 0
    eof_signals_received := 0
    sem_empty := MAX_WORD_ENTRIES
    sem_full := 0
    sem_mutex := 1 }

/-- How a `sem_wait` returns: `0`, `-1` with `errno == EINTR`, or `-1` with
another `errno`.  Every other statement only has the outcome `ok`. -/
inductive Ret where
  | ok
  | eintr
  | error
deriving DecidableEq

/-! ## The producer (`producer.cpp`) -/

/-- Program points of the producer's `main` and of `send_eof_signal`, named by
the statement about to run. -/
inductive PPc where
  /-- line 155, `initialized.compare_exchange_strong(expected_initialized, true)` -/
  | cas
  /-- line 157, `head = 0` -/
  | resetHead
  /-- line 158, `tail = 0` -/
  | resetTail
  /-- line 159, `active_producers_count.store(0)` -/
  | resetActive
  /-- line 160, `eof_signals_received.store(0)` -/
  | resetEof
  /-- line 165, `active_producers_count++` -/
  | incr
  /-- lines 170-171, opening the input file -/
  | openFile
  /-- line 174, `active_producers_count--` when the file did not open -/
  | openFailed
  /-- lines 182-187, loop condition, `cleanWord`, skip of an empty word -/
  | loopTop
  /-- line 189, `sem_wait(sem_empty)` -/
  | waitEmpty
  /-- line 200, `sem_wait(sem_mutex)` -/
  | waitMutex
  /-- lines 214-218, `entries[head] = newEntry` -/
  | write
  /-- lines 219-222, `head = (head + 1) % MAX_WORD_ENTRIES`, `words_produced++` -/
  | advance
  /-- line 224, `sem_post(sem_mutex)` -/
  | postMutex
  /-- line 227, `sem_post(sem_full)` -/
  | postFull
  /-- line 240, `if (running.load())` before the producer's own sentinel -/
  | afterLoop
  /-- line 59, `sem_wait(sem_empty)` in `send_eof_signal` -/
  | eWaitEmpty
  /-- line 66, `sem_wait(sem_mutex)` in `send_eof_signal` -/
  | eWaitMutex
  /-- lines 77-81, `entries[head] = eofEntry` -/
  | eWrite
  /-- line 82, `head = (head + 1) % MAX_WORD_ENTRIES` -/
  | eAdvance
  /-- line 84, `sem_post(sem_mutex)` -/
  | ePostMutex
  /-- line 88, `sem_post(sem_full)` -/
  | ePostFull
  /-- line 245, `remaining_producers = --active_producers_count` -/
  | dec
  /-- line 249, `if (running.load() && remaining_producers == 0)` -/
  | floodCheck
  /-- line 251, the loop test `i < MAX_WORD_ENTRIES` -/
  | floodLoop
  /-- line 260, `return cleanUp(...)` with status 0 -/
  | done
  /-- an error return (lines 175, 197, 211) -/
  | failed
deriving DecidableEq

/-- Local variables of one producer process.  `openable` and `input` are its
environment: whether the input file opens, and the whitespace-separated raw
words still unread.  `flooding` records from where `send_eof_signal` was
called: line 242 (`false`) or the loop of line 251 (`true`). -/
structure Producer where
  pc : PPc
  running : Bool
  openable : Bool
  input : List Word
  cleaned : Word
  words_produced : Nat
  remaining_producers : Int
  i : Nat
  flooding : Bool
deriving DecidableEq

/-- A producer about to run line 155. -/
def newProducer (openable : Bool) (input : List Word) : Producer :=
  { pc := .cas, running := true, openable := openable, input := input, cleaned := [],
    words_produced := 0, remaining_producers := 0, i := 0, flooding := false }

/-- Return from `send_eof_signal` to its caller: line 245 after the call of
line 242, or `++i` and the loop test after the call of line 252. -/
def sendEofReturn (p : Producer) : Producer :=
  if p.flooding then { p with pc := .floodLoop, i := p.i + 1 } else { p with pc := .dec }

/-- One statement of a producer.  `none`: the statement cannot run (a
`sem_wait` on a semaphore whose value is 0 keeps blocking; an exited process
has no statement). -/
def producerStep (sh : Shared) (p : Producer) (r : Ret) : Option (Shared × Producer) :=
  match p.pc, r with
  | .cas, .ok =>
      if sh.initialized then some (sh, { p with pc := .incr })
      else some ({ sh with initialized := true }, { p with pc := .resetHead })
  | .resetHead, .ok => some ({ sh with head := 0 }, { p with pc := .resetTail })
  | .resetTail, .ok => some ({ sh with tail := 0 }, { p with pc := .resetActive })
  | .resetActive, .ok =>
      some ({ sh with active_producers_count := 0 }, { p with pc := .resetEof })
  | .resetEof, .ok => some ({ sh with eof_signals_received := 0 }, { p with pc := .incr })
  | .incr, .ok =>
      some ({ sh with active_producers_count := sh.active_producers_count + 1 },
            { p with pc := .openFile })
  | .openFile, .ok =>
      if p.openable then some (sh, { p with pc := .loopTop })
      else some (sh, { p with pc := .openFailed })
  | .openFailed, .ok =>
      some ({ sh with active_producers_count := sh.active_producers_count - 1 },
            { p with pc := .failed })
  | .loopTop, .ok =>
      if p.running then
        match p.input with
        | [] => some (sh, { p with pc := .afterLoop })
        | rawWord :: rest =>
            if (cleanWord rawWord).isEmpty then
              some (sh, { p with input := rest, cleaned := cleanWord rawWord })
            else
              some (sh, { p with pc := .waitEmpty, input := rest, cleaned := cleanWord rawWord })
      else some (sh, { p with pc := .afterLoop })
  | .waitEmpty, .ok =>
      if 0 < sh.sem_empty then
        some ({ sh with sem_empty := sh.sem_empty - 1 }, { p with pc := .waitMutex })
      else none
  | .waitEmpty, .eintr =>
      if p.running then some (sh, { p with pc := .loopTop })
      else some (sh, { p with pc := .afterLoop })
  | .waitEmpty, .error => some (sh, { p with pc := .failed })
  | .waitMutex, .ok =>
      if 0 < sh.sem_mutex then
        some ({ sh with sem_mutex := sh.sem_mutex - 1 }, { p with pc := .write })
      else none
  | .waitMutex, .eintr =>
      if p.running then some (sh, { p with pc := .loopTop })
      else some ({ sh with sem_empty := sh.sem_empty + 1 }, { p with pc := .afterLoop })
  | .waitMutex, .error =>
      some ({ sh with sem_empty := sh.sem_empty + 1 }, { p with pc := .failed })
  | .write, .ok =>
      some ({ sh with entries := sh.entries.set sh.head (storeWord p.cleaned) },
            { p with pc := .advance })
  | .advance, .ok =>
      some ({ sh with head := (sh.head + 1) % MAX_WORD_ENTRIES },
            { p with pc := .postMutex, words_produced := p.words_produced + 1 })
  | .postMutex, .ok =>
      some ({ sh with sem_mutex := sh.sem_mutex + 1 }, { p with pc := .postFull })
  | .postFull, .ok =>
      some ({ sh with sem_full := sh.sem_full + 1 }, { p with pc := .loopTop })
  | .afterLoop, .ok =>
      if p.running then some (sh, { p with pc := .eWaitEmpty })
      else some (sh, { p with pc := .dec })
  | .eWaitEmpty, .ok =>
      if 0 < sh.sem_empty then
        some ({ sh with sem_empty := sh.sem_empty - 1 }, { p with pc := .eWaitMutex })
      else none
  | .eWaitEmpty, .eintr => some (sh, sendEofReturn p)
  | .eWaitEmpty, .error => some (sh, sendEofReturn p)
  | .eWaitMutex, .ok =>
      if 0 < sh.sem_mutex then
        some ({ sh with sem_mutex := sh.sem_mutex - 1 }, { p with pc := .eWrite })
      else none
  | .eWaitMutex, .eintr =>
      some ({ sh with sem_empty := sh.sem_empty + 1 }, sendEofReturn p)
  | .eWaitMutex, .error =>
      some ({ sh with sem_empty := sh.sem_empty + 1 }, sendEofReturn p)
  | .eWrite, .ok =>
      some ({ sh with entries := sh.entries.set sh.head (storeWord EOF_SIGNAL_WORD) },
            { p with pc := .eAdvance })
  | .eAdvance, .ok =>
      some ({ sh with head := (sh.head + 1) % MAX_WORD_ENTRIES }, { p with pc := .ePostMutex })
  | .ePostMutex, .ok =>
      some ({ sh with sem_mutex := sh.sem_mutex + 1 }, { p with pc := .ePostFull })
  | .ePostFull, .ok =>
      some ({ sh with sem_full := sh.sem_full + 1 }, sendEofReturn p)
  | .dec, .ok =>
      some ({ sh with active_producers_count := sh.active_producers_count - 1 },
            { p with pc := .floodCheck, remaining_producers := sh.active_producers_count - 1 })
  | .floodCheck, .ok =>
      if p.running && p.remaining_producers == 0 then
        some (sh, { p with pc := .floodLoop, i := 0, flooding := true })
      else some (sh, { p with pc := .done })
  | .floodLoop, .ok =>
      if p.i < MAX_WORD_ENTRIES then some (sh, { p with pc := .eWaitEmpty })
      else some (sh, { p with pc := .done })
  | _, _ => none

/-! ## The consumer (`consumer.cpp`) -/

/-- Program points of the consumer's `main`. -/
inductive CPc where
  /-- lines 110-115, waiting for `initialized` -/
  | waitInit
  /-- lines 118-120, `running.load()` and the load of `eof_signals_received` -/
  | loopTop
  /-- lines 120-123, the load of `active_producers_count` -/
  | checkActive
  /-- line 126, `sem_wait(sem_full)` -/
  | waitFull
  /-- line 136, `sem_wait(sem_mutex)` -/
  | waitMutex
  /-- line 149, `currentEntry = entries[tail]` -/
  | read
  /-- line 150, `tail = (tail + 1) % MAX_WORD_ENTRIES` -/
  | advance
  /-- line 152, `sem_post(sem_mutex)` -/
  | postMutex
  /-- line 156, `sem_post(sem_empty)` -/
  | postEmpty
  /-- line 160, `strcmp(currentEntry.word, EOF_SIGNAL_WORD) == 0` -/
  | test
  /-- line 162, `eof_signals_received++` -/
  | incEof
  /-- line 165, the load of `eof_signals_received` -/
  | recheck
  /-- lines 165-169, the load of `active_producers_count`, then `continue` -/
  | recheckActive
  /-- lines 172-176, `words_processed++`, `wordCounts[word]++` -/
  | record
  /-- lines 183-197, the table is written out, status 0 -/
  | done
  /-- an error return (lines 115, 133, 146) -/
  | failed
deriving DecidableEq

/-- The statement `wordCounts[w]++` on the table, kept as a list of pairs in
order of first insertion. -/
def bump : List (Word × Nat) → Word → List (Word × Nat)
  | [], w => [(w, 1)]
  | (k, n) :: rest, w => if k = w then (k, n + 1) :: rest else (k, n) :: bump rest w

/-- The count the table holds for `w` (0 when `w` is not a key). -/
def countOf : List (Word × Nat) → Word → Nat
  | [], _ => 0
  | (k, n) :: rest, w => if k = w then n else countOf rest w

/-- Local variables of one consumer process. -/
structure Consumer where
  pc : CPc
  running : Bool
  total_expected_producers : Int
  currentEntry : Word
  wordCounts : List (Word × Nat)
  words_processed : Nat
deriving DecidableEq

/-- A consumer that has attached and is about to run line 110. -/
def newConsumer (total_expected_producers : Int) : Consumer :=
  { pc := .waitInit, running := true, total_expected_producers := total_expected_producers,
    currentEntry := [], wordCounts := [], words_processed := 0 }

/-- One statement of a consumer; `none` as for `producerStep`. -/
def consumerStep (sh : Shared) (c : Consumer) (r : Ret) : Option (Shared × Consumer) :=
  match c.pc, r with
  | .waitInit, .ok =>
      if c.running then
        if sh.initialized then some (sh, { c with pc := .loopTop })
        else some (sh, c)
      else some (sh, { c with pc := .failed })
  | .loopTop, .ok =>
      if c.running then
        if c.total_expected_producers ≤ sh.eof_signals_received then
          some (sh, { c with pc := .checkActive })
        else some (sh, { c with pc := .waitFull })
      else some (sh, { c with pc := .done })
  | .checkActive, .ok =>
      if sh.active_producers_count = 0 then some (sh, { c with pc := .done, running := false })
      else some (sh, { c with pc := .waitFull })
  | .waitFull, .ok =>
      if 0 < sh.sem_full then
        some ({ sh with sem_full := sh.sem_full - 1 }, { c with pc := .waitMutex })
      else none
  | .waitFull, .eintr =>
      if c.running then some (sh, { c with pc := .loopTop })
      else some (sh, { c with pc := .done })
  | .waitFull, .error => some (sh, { c with pc := .failed })
  | .waitMutex, .ok =>
      if 0 < sh.sem_mutex then
        some ({ sh with sem_mutex := sh.sem_mutex - 1 }, { c with pc := .read })
      else none
  | .waitMutex, .eintr =>
      if c.running then some (sh, { c with pc := .loopTop })
      else some ({ sh with sem_full := sh.sem_full + 1 }, { c with pc := .done })
  | .waitMutex, .error =>
      some ({ sh with sem_full := sh.sem_full + 1 }, { c with pc := .failed })
  | .read, .ok =>
      some (sh, { c with pc := .advance, currentEntry := sh.entries.getD sh.tail [] })
  | .advance, .ok =>
      some ({ sh with tail := (sh.tail + 1) % MAX_WORD_ENTRIES }, { c with pc := .postMutex })
  | .postMutex, .ok =>
      some ({ sh with sem_mutex := sh.sem_mutex + 1 }, { c with pc := .postEmpty })
  | .postEmpty, .ok =>
      some ({ sh with sem_empty := sh.sem_empty + 1 }, { c with pc := .test })
  | .test, .ok =>
      if isEofEntry c.currentEntry then some (sh, { c with pc := .incEof })
      else some (sh, { c with pc := .record })
  | .incEof, .ok =>
      some ({ sh with eof_signals_received := sh.eof_signals_received + 1 },
            { c with pc := .recheck })
  | .recheck, .ok =>
      if c.total_expected_producers ≤ sh.eof_signals_received then
        some (sh, { c with pc := .recheckActive })
      else some (sh, { c with pc := .loopTop })
  | .recheckActive, .ok =>
      if sh.active_producers_count = 0 then some (sh, { c with pc := .loopTop, running := false })
      else some (sh, { c with pc := .loopTop })
  | .record, .ok =>
      some (sh, { c with pc := .loopTop, words_processed := c.words_processed + 1,
                         wordCounts := bump c.wordCounts c.currentEntry })
  | _, _ => none

/-! ## The system: any number of producers and consumers -/

/-- The shared segment and the processes attached to it. -/
structure State where
  sh : Shared
  producers : List Producer
  consumers : List Consumer
deriving DecidableEq

/-- What happens next: a statement of producer `i` or of consumer `j` (with the
way its `sem_wait` returns), or the delivery of SIGINT to one of them. -/
inductive Label where
  | prod (i : Nat) (r : Ret)
  | cons (j : Nat) (r : Ret)
  | sigintProd (i : Nat)
  | sigintCons (j : Nat)
deriving DecidableEq

/-- One step of the system. -/
def step (s : State) : Label → Option State
  | .prod i r =>
      match s.producers[i]? with
      | none => none
      | some p =>
          match producerStep s.sh p r with
          | none => none
          | some (sh, p1) => some { s with sh := sh, producers := s.producers.set i p1 }
  | .cons j r =>
      match s.consumers[j]? with
      | none => none
      | some c =>
          match consumerStep s.sh c r with
          | none => none
          | some (sh, c1) => some { s with sh := sh, consumers := s.consumers.set j c1 }
  | .sigintProd i =>
      match s.producers[i]? with
      | none => none
      | some p => some { s with producers := s.producers.set i { p with running := false } }
  | .sigintCons j =>
      match s.consumers[j]? with
      | none => none
      | some c => some { s with consumers := s.consumers.set j { c with running := false } }

/-- A run: the steps named by the labels, in order; `none` when one of them
cannot be taken. -/
def exec : State → List Label → Option State
  | s, [] => some s
  | s, l :: tr =>
      match step s l with
      | none => none
      | some s1 => exec s1 tr

/-- The start of a run: a fresh segment, each producer about to initialise it
(given whether its file opens, and its raw words), each consumer attached (given
its `total_expected_producers`). -/
def initState (files : List (Bool × List Word)) (expected : List Int) : State :=
  { sh := freshShared
    producers := files.map (fun f => newProducer f.1 f.2)
    consumers := expected.map newConsumer }

/-- Labels of a run without SIGINT, interrupted or failing waits. -/
def Label.quiet : Label → Bool
  | .prod _ r => r == .ok
  | .cons _ r => r == .ok
  | _ => false

/-! ## Quantities the properties speak about -/

/-- Sum of a per-process quantity over a list of processes. -/
def sumOver {α : Type} (f : α → Int) (l : List α) : Int := (l.map f).sum

/-- One at the producer program points between a successful `sem_wait(sem_empty)`
and the matching `sem_post(sem_full)`: the producer holds a slot permit. -/
def PPc.permit : PPc → Int
  | .waitMutex | .write | .advance | .postMutex | .postFull
  | .eWaitMutex | .eWrite | .eAdvance | .ePostMutex | .ePostFull => 1
  | _ => 0

/-- One at the consumer program points between a successful `sem_wait(sem_full)`
and the matching `sem_post(sem_empty)`. -/
def CPc.permit : CPc → Int
  | .waitMutex | .read | .advance | .postMutex | .postEmpty => 1
  | _ => 0

/-- Number of processes that are inside a push or a dequeue. -/
def permits (s : State) : Int :=
  sumOver (fun p => p.pc.permit) s.producers + sumOver (fun c => c.pc.permit) s.consumers

/-- One where a producer has advanced `head` and not yet posted `sem_full`. -/
def PPc.advanced : PPc → Int
  | .postMutex | .postFull | .ePostMutex | .ePostFull => 1
  | _ => 0

/-- One where a consumer has taken `sem_full` and not yet advanced `tail`. -/
def CPc.taken : CPc → Int
  | .waitMutex | .read | .advance => 1
  | _ => 0

/-- The step advances `head` (a push, of a word or of a sentinel). -/
def isPush (s : State) : Label → Bool
  | .prod i r =>
      match s.producers[i]? with
      | some p => r == .ok && (p.pc == .advance || p.pc == .eAdvance)
      | none => false
  | _ => false

/-- The step advances `tail` (a dequeue). -/
def isDequeue (s : State) : Label → Bool
  | .cons j r =>
      match s.consumers[j]? with
      | some c => r == .ok && c.pc == .advance
      | none => false
  | _ => false

/-- How many steps of the run from `s` satisfy `f` (judged in the state the
step starts from). -/
def countSteps (f : State → Label → Bool) : State → List Label → Nat
  | _, [] => 0
  | s, l :: tr =>
      (if f s l then 1 else 0) +
        match step s l with
        | none => 0
        | some s1 => countSteps f s1 tr

/-- Slots written and not yet read along the run: pushes minus dequeues. -/
def occupied (s : State) (tr : List Label) : Int :=
  (countSteps isPush s tr : Int) - (countSteps isDequeue s tr : Int)

/-- What `sem_full` accounts for: its value, the consumers that have taken it
and not yet advanced `tail`, the producers that have advanced `head` and not
yet posted it. -/
def fullAccount (s : State) : Int :=
  s.sh.sem_full + sumOver (fun c => c.pc.taken) s.consumers +
    sumOver (fun p => p.pc.advanced) s.producers

/-- The step is a `sem_wait(sem_mutex)` of a main loop (producer line 200,
consumer line 136) that returns EINTR while `running` is still true: the
`continue` of lines 206 and 142. -/
def retriedMutexWait (s : State) : Label → Bool
  | .prod i r =>
      match s.producers[i]? with
      | some p => p.pc == .waitMutex && r == .eintr && p.running
      | none => false
  | .cons j r =>
      match s.consumers[j]? with
      | some c => c.pc == .waitMutex && r == .eintr && c.running
      | none => false
  | _ => false

/-- A run none of whose steps satisfies `bad`. -/
def execAvoiding (bad : State → Label → Bool) : State → List Label → Option State
  | s, [] => some s
  | s, l :: tr =>
      if bad s l then none
      else
        match step s l with
        | none => none
        | some s1 => execAvoiding bad s1 tr

/-- No process is inside a push or a dequeue. -/
def quiescent (s : State) : Prop :=
  (∀ p ∈ s.producers, p.pc.permit = 0) ∧ (∀ c ∈ s.consumers, c.pc.permit = 0)

/-- The occupancy equalities of the data model, at the end of a run from a
start state. -/
def OccupancyEqualities (s0 : State) (tr : List Label) (s : State) : Prop :=
  occupied s0 tr = s.sh.sem_full ∧ s.sh.sem_full = MAX_WORD_ENTRIES - s.sh.sem_empty

/-- The permit invariant: the semaphore values are not negative and, with the
permits held by processes, they never add up to more than the capacity. -/
def PermitInv (s : State) : Prop :=
  0 ≤ s.sh.sem_empty ∧ 0 ≤ s.sh.sem_full ∧
    s.sh.sem_empty + s.sh.sem_full + permits s ≤ MAX_WORD_ENTRIES

/-! ## A small concrete run: one producer with the raw word `Hi!`, one consumer -/

/-- The start state of the demonstration run. -/
def demoStart : State := initState [(true, [ascii "Hi!"])] [1]

/-- The state after the producer's first 9 statements: it has initialised the
segment, cleaned `Hi!` to `hi` and taken `sem_empty`. -/
def demoInsidePush : State :=
  { sh := { initialized := true, entries := List.replicate 10 [], head := 0, tail := 0,
            active_producers_count := 1, eof_signals_received := 0,
            sem_empty := 9, sem_full := 0, sem_mutex := 1 }
    producers := [{ pc := .waitMutex, running := true, openable := true, input := [],
                    cleaned := ascii "hi", words_produced := 0, remaining_producers := 0,
                    i := 0, flooding := false }]
    consumers := [newConsumer 1] }

/-- The state after the producer's first 14 statements: `hi` is in slot 0. -/
def demoPushed : State :=
  { sh := { initialized := true, entries := ascii "hi" :: List.replicate 9 [], head := 1,
            tail := 0, active_producers_count := 1, eof_signals_received := 0,
            sem_empty := 9, sem_full := 1, sem_mutex := 1 }
    producers := [{ pc := .loopTop, running := true, openable := true, input := [],
                    cleaned := ascii "hi", words_produced := 1, remaining_producers := 0,
                    i := 0, flooding := false }]
    consumers := [newConsumer 1] }

/-! ## The initialisation race (two producers) -/

/-- Two producers whose input files open and hold no word; no consumer. -/
def raceStart : State := initState [(true, []), (true, [])] []

/-- Producer 0 wins the compare-and-set of line 155.  Before it runs the
stores of lines 157-160, producer 1 finds `initialized` set and runs its
`active_producers_count++`.  Producer 0 then stores 0 over that increment, and
both producers run to just after their final decrement of line 245. -/
def raceRun : List Label :=
  [.prod 0 .ok] ++
  [.prod 1 .ok, .prod 1 .ok] ++
  List.replicate 4 (.prod 0 .ok) ++
  List.replicate 11 (.prod 0 .ok) ++
  List.replicate 10 (.prod 1 .ok)

/-- The state `raceRun` ends in: both producers are past their final
decrement, and the count is -1. -/
def raceEnd : State :=
  { sh := { initialized := true,
            entries := EOF_SIGNAL_WORD :: EOF_SIGNAL_WORD :: List.replicate 8 [],
            head := 2, tail := 0, active_producers_count := -1, eof_signals_received := 0,
            sem_empty := 8, sem_full := 2, sem_mutex := 1 }
    producers := [{ pc := .floodCheck, running := true, openable := true, input := [],
                    cleaned := [], words_produced := 0, remaining_producers := 0,
                    i := 0, flooding := false },
                  { pc := .floodCheck, running := true, openable := true, input := [],
                    cleaned := [], words_produced := 0, remaining_producers := -1,
                    i := 0, flooding := false }]
    consumers := [] }

/-! ## Interrupted waits while `running` is true -/

/-- One producer whose file holds the raw words `a`, `b`, `c`; no consumer. -/
def interruptStart : State := initState [(true, [ascii "a", ascii "b", ascii "c"])] []

/-- The producer reaches `sem_wait(sem_empty)` for `a`, which returns EINTR
(`continue`, line 193); the loop condition reads `b`, `sem_wait(sem_empty)`
succeeds and `sem_wait(sem_mutex)` returns EINTR (`continue`, line 206); the
loop condition reads `c`, which is pushed; the file is exhausted and the
`sem_wait(sem_empty)` of `send_eof_signal` returns EINTR (line 59). -/
def interruptRun : List Label :=
  List.replicate 8 (.prod 0 .ok) ++ [.prod 0 .eintr] ++
  [.prod 0 .ok, .prod 0 .ok] ++ [.prod 0 .eintr] ++
  List.replicate 7 (.prod 0 .ok) ++
  [.prod 0 .ok, .prod 0 .ok] ++ [.prod 0 .eintr]

/-- The state `interruptRun` ends in: only `c` was pushed, `sem_empty` is 8
with one slot in use and no process inside a push, and the producer is at its
final decrement without having pushed a sentinel. -/
def interruptEnd : State :=
  { sh := { initialized := true, entries := ascii "c" :: List.replicate 9 [], head := 1,
            tail := 0, active_producers_count := 1, eof_signals_received := 0,
            sem_empty := 8, sem_full := 1, sem_mutex := 1 }
    producers := [{ pc := .dec, running := true, openable := true, input := [],
                    cleaned := ascii "c", words_produced := 1, remaining_producers := 0,
                    i := 0, flooding := false }]
    consumers := [] }

/-- From `demoStart`: the producer pushes `hi`; the consumer takes `sem_full`,
its `sem_wait(sem_mutex)` returns EINTR (`continue`, line 142) and it is back
at `sem_wait(sem_full)`. -/
def consumerInterruptRun : List Label :=
  List.replicate 14 (.prod 0 .ok) ++ List.replicate 3 (.cons 0 .ok) ++
  [.cons 0 .eintr, .cons 0 .ok]

/-- The state `consumerInterruptRun` ends in: `hi` is unread in slot 0,
`sem_full` is 0 and the consumer waits for it. -/
def consumerInterruptEnd : State :=
  { sh := { initialized := true, entries := ascii "hi" :: List.replicate 9 [], head := 1,
            tail := 0, active_producers_count := 1, eof_signals_received := 0,
            sem_empty := 9, sem_full := 0, sem_mutex := 1 }
    producers := [{ pc := .loopTop, running := true, openable := true, input := [],
                    cleaned := ascii "hi", words_produced := 1, remaining_producers := 0,
                    i := 0, flooding := false }]
    consumers := [{ pc := .waitFull, running := true, total_expected_producers := 1,
                    currentEntry := [], wordCounts := [], words_processed := 0 }] }

/-! ## The counter `eof_signals_received` -/

/-- The step is the consumer statement `eof_signals_received++` (line 162). -/
def isEofIncrement (s : State) : Label → Bool
  | .cons j r =>
      match s.consumers[j]? with
      | some c => r == .ok && c.pc == .incEof
      | none => false
  | _ => false

/-- The step is a consumer's read (line 149) of a slot that holds the
sentinel. -/
def isSentinelDequeue (s : State) : Label → Bool
  | .cons j r =>
      match s.consumers[j]? with
      | some c => r == .ok && c.pc == .read && isEofEntry (s.sh.entries.getD s.sh.tail [])
      | none => false
  | _ => false

/-- One for a consumer that has read a sentinel and not yet counted it. -/
def Consumer.pendingEof (c : Consumer) : Int :=
  match c.pc with
  | .advance | .postMutex | .postEmpty | .test => if isEofEntry c.currentEntry then 1 else 0
  | .incEof => 1
  | _ => 0

/-- The consumer program points between a successful `sem_wait(sem_mutex)` and
the `sem_post(sem_mutex)`: the consumer holds the mutex. -/
def CPc.holdsMutex : CPc → Bool
  | .read | .advance | .postMutex => true
  | _ => false

/-- The third part of the claim on `eof_signals_received`, at consumer `j` of
state `s`: if its next statement is the increment, it holds the mutex (and so
the mutex semaphore is 0). -/
def IncrementUnderMutex (s : State) (j : Nat) : Prop :=
  ∀ c, s.consumers[j]? = some c → c.pc = .incEof →
    c.pc.holdsMutex = true ∧ s.sh.sem_mutex = 0

/-- One producer whose file holds no word, one consumer expecting one
producer. -/
def sentinelStart : State := initState [(true, [])] [1]

/-- The producer pushes its own sentinel (15 statements); the consumer
dequeues it and has tested it (9 statements). -/
def sentinelRun : List Label :=
  List.replicate 15 (.prod 0 .ok) ++ List.replicate 9 (.cons 0 .ok)

/-- The state `sentinelRun` ends in: the consumer's next statement is
`eof_signals_received++`, and `sem_mutex` is 1. -/
def sentinelTested : State :=
  { sh := { initialized := true, entries := EOF_SIGNAL_WORD :: List.replicate 9 [], head := 1,
            tail := 1, active_producers_count := 1, eof_signals_received := 0,
            sem_empty := 10, sem_full := 0, sem_mutex := 1 }
    producers := [{ pc := .dec, running := true, openable := true, input := [],
                    cleaned := [], words_produced := 0, remaining_producers := 0,
                    i := 0, flooding := false }]
    consumers := [{ pc := .incEof, running := true, total_expected_producers := 1,
                    currentEntry := EOF_SIGNAL_WORD, wordCounts := [], words_processed := 0 }] }

/-- The state after the consumer's increment that follows `sentinelRun`. -/
def sentinelCounted : State :=
  { sh := { initialized := true, entries := EOF_SIGNAL_WORD :: List.replicate 9 [], head := 1,
            tail := 1, active_producers_count := 1, eof_signals_received := 1,
            sem_empty := 10, sem_full := 0, sem_mutex := 1 }
    producers := [{ pc := .dec, running := true, openable := true, input := [],
                    cleaned := [], words_produced := 0, remaining_producers := 0,
                    i := 0, flooding := false }]
    consumers := [{ pc := .recheck, running := true, total_expected_producers := 1,
                    currentEntry := EOF_SIGNAL_WORD, wordCounts := [], words_processed := 0 }] }

/-- A consumer about to run `eof_signals_received++` has the sentinel in
`currentEntry`. -/
def IncrementsOnSentinel (s : State) : Prop :=
  ∀ c ∈ s.consumers, c.pc = .incEof → isEofEntry c.currentEntry = true

/-! ## Tokens pushed and tokens recorded -/

/-- The regular tokens pushed along a run, in order: what the statements of
line 218 store in a slot. -/
def pushedWords : State → List Label → List Word
  | _, [] => []
  | s, l :: tr =>
      (match l with
        | .prod i r =>
            match s.producers[i]? with
            | some p => if r == .ok && p.pc == .write then [storeWord p.cleaned] else []
            | none => []
        | _ => []) ++
        match step s l with
        | none => []
        | some s1 => pushedWords s1 tr

/-- How often `w` is recorded in the tables of all consumers together. -/
def recordedCount (s : State) (w : Word) : Nat :=
  (s.consumers.map (fun c => countOf c.wordCounts w)).sum

/-! ## Two producers: one starts after the other has finished -/

/-- Producer 0 reads `a`, producer 1 reads `b`; one consumer started with
`total_expected_producers = 2`. -/
def pairStart : State := initState [(true, [ascii "a"]), (true, [ascii "b"])] [2]

/-- Producer 0 runs alone: it pushes `a` and its sentinel, decrements the count
to 0 and pushes sentinels until the buffer is full (81 statements).  The
consumer records `a`, counts two sentinels, finds the count 0 and stops (32
statements).  Producer 0 pushes its last sentinels and returns (14
statements).  Producer 1 then attaches, pushes `b` and starts its own sentinel
(12 statements). -/
def lateRun : List Label :=
  List.replicate 81 (.prod 0 .ok) ++ List.replicate 32 (.cons 0 .ok) ++
  List.replicate 14 (.prod 0 .ok) ++ List.replicate 12 (.prod 1 .ok)

/-- The state `lateRun` ends in. -/
def lateEnd : State :=
  { sh := { initialized := true,
            entries := [EOF_SIGNAL_WORD, EOF_SIGNAL_WORD, ascii "b"] ++
              List.replicate 7 EOF_SIGNAL_WORD,
            head := 3, tail := 3, active_producers_count := 1, eof_signals_received := 2,
            sem_empty := 0, sem_full := 10, sem_mutex := 1 }
    producers := [{ pc := .done, running := true, openable := true, input := [],
                    cleaned := ascii "a", words_produced := 1, remaining_producers := 0,
                    i := 10, flooding := true },
                  { pc := .eWaitEmpty, running := true, openable := true, input := [],
                    cleaned := ascii "b", words_produced := 1, remaining_producers := 0,
                    i := 0, flooding := false }]
    consumers := [{ pc := .done, running := false, total_expected_producers := 2,
                    currentEntry := EOF_SIGNAL_WORD, wordCounts := [(ascii "a", 1)],
                    words_processed := 1 }] }

/-! ## A slot overwritten during initialisation -/

/-- From `pairStart`: producer 0 wins the compare-and-set of line 155; producer
1 finds `initialized` set, and pushes `b` into slot 0 (10 statements); producer
0 then runs its stores of lines 157-160, `head = 0` among them, pushes `a` into
slot 0, pushes its sentinel, decrements the count to 0 and pushes one further
sentinel (30 statements); the consumer records `a`, counts two sentinels, finds
the count 0 and stops (32 statements). -/
def overwriteRun : List Label :=
  [.prod 0 .ok] ++ List.replicate 10 (.prod 1 .ok) ++ List.replicate 30 (.prod 0 .ok) ++
  List.replicate 32 (.cons 0 .ok)

/-- The state `overwriteRun` ends in. -/
def overwriteEnd : State :=
  { sh := { initialized := true,
            entries := [ascii "a", EOF_SIGNAL_WORD, EOF_SIGNAL_WORD] ++ List.replicate 7 [],
            head := 3, tail := 3, active_producers_count := 0, eof_signals_received := 2,
            sem_empty := 9, sem_full := 1, sem_mutex := 1 }
    producers := [{ pc := .floodLoop, running := true, openable := true, input := [],
                    cleaned := ascii "a", words_produced := 1, remaining_producers := 0,
                    i := 1, flooding := true },
                  { pc := .loopTop, running := true, openable := true, input := [],
                    cleaned := ascii "b", words_produced := 1, remaining_producers := 0,
                    i := 0, flooding := false }]
    consumers := [{ pc := .done, running := false, total_expected_producers := 2,
                    currentEntry := EOF_SIGNAL_WORD, wordCounts := [(ascii "a", 1)],
                    words_processed := 1 }] }

/-! ## More consumers than sentinels -/

/-- One producer whose file holds no word and twelve consumers, each started
with `total_expected_producers = 1`. -/
def crowdStart : State := initState [(true, [])] (List.replicate 12 1)

/-- The producer initialises the segment; each consumer finds
`eof_signals_received = 0` and waits on `sem_full`; the producer pushes its
sentinel, decrements the count to 0 and pushes its ten further sentinels, while
consumers 0 to 10 each dequeue one sentinel, find the predicate true and
stop. -/
def crowdRun : List Label :=
  [.prod 0 .ok] ++
  ((List.range 12).map (fun j => List.replicate 2 (Label.cons j .ok))).flatten ++
  List.replicate 80 (.prod 0 .ok) ++ List.replicate 11 (.cons 0 .ok) ++
  List.replicate 7 (.prod 0 .ok) ++
  ((List.range 10).map (fun j => List.replicate 11 (Label.cons (j + 1) .ok))).flatten

/-- The state `crowdRun` ends in: all eleven sentinels are consumed, the
producer and consumers 0 to 10 have returned, consumer 11 waits on
`sem_full`. -/
def crowdEnd : State :=
  { sh := { initialized := true, entries := List.replicate 10 EOF_SIGNAL_WORD,
            head := 1, tail := 1, active_producers_count := 0, eof_signals_received := 11,
            sem_empty := 10, sem_full := 0, sem_mutex := 1 }
    producers := [{ pc := .done, running := true, openable := true, input := [],
                    cleaned := [], words_produced := 0, remaining_producers := 0,
                    i := 10, flooding := true }]
    consumers := List.replicate 11
        { pc := .done, running := false, total_expected_producers := 1,
          currentEntry := EOF_SIGNAL_WORD, wordCounts := [], words_processed := 0 } ++
      [{ pc := .waitFull, running := true, total_expected_producers := 1,
         currentEntry := [], wordCounts := [], words_processed := 0 }] }

/-! ## The statements a producer runs after its loop -/

/-- The raw words of the producer's source. -/
def rawA : List Word :=
  [ascii "The", ascii "cat", ascii "sat", ascii "on", ascii "the", ascii "mat"]

/-- Scenario A: one producer reading `rawA`, one consumer started with
`total_expected_producers = 1`, on a fresh segment. -/
def scenarioA : State := initState [(true, rawA)] [1]

/-- The table of scenario A: `the` twice, the other words once. -/
def expectedTableA : List (Word × Nat) :=
  [(ascii "the", 2), (ascii "cat", 1), (ascii "sat", 1), (ascii "on", 1), (ascii "mat", 1)]

/-- What the producer of scenario A stores in slots, in order: the six cleaned
words, then its own sentinel and the `MAX_WORD_ENTRIES` further ones. -/
def itemsA : List Word :=
  rawA.map (fun w => storeWord (cleanWord w)) ++
    List.replicate (1 + MAX_WORD_ENTRIES) (storeWord EOF_SIGNAL_WORD)

/-- The table after `wordCounts[w]++` for the first `k` items. -/
def tableA (k : Nat) : List (Word × Nat) := (itemsA.take k).foldl bump []

/-- Number of `head` advances a producer of scenario A has made, read off its
local variables: the words produced, its own sentinel, the sentinels of the
loop of line 251. -/
def Producer.advances (p : Producer) : Nat :=
  p.words_produced +
    (if p.flooding then
      1 + p.i + (match p.pc with
        | .ePostMutex | .ePostFull => 1
        | _ => 0)
    else
      match p.pc with
      | .ePostMutex | .ePostFull | .dec | .floodCheck | .done => 1
      | _ => 0)

/-- One where the producer has written its slot and not yet advanced `head`. -/
def PPc.written : PPc → Nat
  | .advance | .eAdvance => 1
  | _ => 0

/-- One where the consumer has advanced `tail` for the item it still holds. -/
def CPc.tailAhead : CPc → Nat
  | .postMutex | .postEmpty | .test | .incEof | .record => 1
  | _ => 0

/-- The consumer holds in `currentEntry` an item it has not yet counted. -/
def CPc.holdsItem : CPc → Bool
  | .advance | .postMutex | .postEmpty | .test | .incEof | .record => true
  | _ => false

/-- Number of items the consumer has dealt with: words recorded and sentinels
counted. -/
def consumed (sh : Shared) (c : Consumer) : Nat :=
  c.words_processed + sh.eof_signals_received.toNat

/-- What holds of the producer's local variables in scenario A. -/
def ProducerA (p : Producer) : Prop :=
  p.running = true ∧ p.openable = true ∧ p.words_produced ≤ 6 ∧
    match p.pc with
    | .cas | .resetHead | .resetTail | .resetActive | .resetEof | .incr | .openFile =>
        p.words_produced = 0 ∧ p.input = rawA ∧ p.flooding = false
    | .loopTop | .postMutex | .postFull =>
        p.input = rawA.drop p.words_produced ∧ p.flooding = false
    | .waitEmpty | .waitMutex | .write | .advance =>
        p.words_produced < 6 ∧ p.input = rawA.drop (p.words_produced + 1) ∧
          p.cleaned = cleanWord (rawA.getD p.words_produced []) ∧ p.flooding = false
    | .afterLoop | .dec | .floodCheck => p.words_produced = 6 ∧ p.flooding = false
    | .eWaitEmpty | .eWaitMutex | .eWrite | .eAdvance | .ePostMutex | .ePostFull =>
        p.words_produced = 6 ∧ (p.flooding = true → p.i < MAX_WORD_ENTRIES)
    | .floodLoop => p.words_produced = 6 ∧ p.flooding = true ∧ p.i ≤ MAX_WORD_ENTRIES
    | .done => p.words_produced = 6 ∧ (p.flooding = true → p.i = MAX_WORD_ENTRIES)
    | .openFailed | .failed => False

/-- What holds of the consumer's local variables in scenario A. -/
def ConsumerA (sh : Shared) (c : Consumer) : Prop :=
  0 ≤ sh.eof_signals_received ∧ c.words_processed ≤ 6 ∧
    (1 ≤ sh.eof_signals_received → c.words_processed = 6) ∧
    c.wordCounts = tableA c.words_processed ∧
    c.total_expected_producers = 1 ∧
    (c.pc.holdsItem = true → c.currentEntry = itemsA.getD (consumed sh c) []) ∧
    (c.pc = .incEof → isEofEntry c.currentEntry = true) ∧
    (c.pc = .record → isEofEntry c.currentEntry = false) ∧
    (c.running = false ∨ c.pc = .checkActive ∨ c.pc = .recheckActive ∨ c.pc = .done →
      1 ≤ sh.eof_signals_received) ∧
    (c.running = false → c.pc = .loopTop ∨ c.pc = .done) ∧
    c.pc ≠ .failed

/-- The invariant of scenario A: the local facts, the two slot semaphores as
counts of pushes and dequeues, the indices, and the slots written and not yet
overwritten holding the items in order. -/
structure InvA (sh : Shared) (p : Producer) (c : Consumer) : Prop where
  prod : ProducerA p
  cons : ConsumerA sh c
  empty_nonneg : 0 ≤ sh.sem_empty
  full_nonneg : 0 ≤ sh.sem_full
  empty_eq : sh.sem_empty + (p.advances : Int) + p.pc.permit - p.pc.advanced + c.pc.permit =
    (MAX_WORD_ENTRIES : Int) + ((consumed sh c + c.pc.tailAhead : Nat) : Int) + c.pc.taken
  full_eq : sh.sem_full + ((consumed sh c + c.pc.tailAhead : Nat) : Int) + c.pc.taken +
    p.pc.advanced = (p.advances : Int)
  head_eq : sh.head = p.advances % MAX_WORD_ENTRIES
  tail_eq : sh.tail = (consumed sh c + c.pc.tailAhead) % MAX_WORD_ENTRIES
  len : sh.entries.length = MAX_WORD_ENTRIES
  slots : ∀ k, k < p.advances + p.pc.written → p.advances + p.pc.written ≤ k + MAX_WORD_ENTRIES →
    sh.entries.getD (k % MAX_WORD_ENTRIES) [] = itemsA.getD k []

/-- The invariant on a state of scenario A. -/
def StateInvA (s : State) : Prop :=
  ∃ p c, s.producers = [p] ∧ s.consumers = [c] ∧ InvA s.sh p c

/-- A complete run of scenario A: the producer runs until the buffer is full
(81 statements), then the consumer runs to its return (67 statements). -/
def runA : List Label :=
  List.replicate 81 (.prod 0 .ok) ++ List.replicate 67 (.cons 0 .ok)

/-- The consumer at the end of `runA`: returned, six words processed. -/
def consumerAEnd : Consumer :=
  { pc := .done, running := false, total_expected_producers := 1,
    currentEntry := EOF_SIGNAL_WORD, wordCounts := expectedTableA, words_processed := 6 }

/-- The state `runA` ends in. -/
def scenarioAEnd : State :=
  { sh := { initialized := true,
            entries := [ascii "the", ascii "cat", ascii "sat", ascii "on", ascii "the",
              ascii "mat"] ++ List.replicate 4 EOF_SIGNAL_WORD,
            head := 0, tail := 7, active_producers_count := 0, eof_signals_received := 1,
            sem_empty := 7, sem_full := 3, sem_mutex := 1 }
    producers := [{ pc := .eWaitEmpty, running := true, openable := true, input := [],
                    cleaned := ascii "mat", words_produced := 6, remaining_producers := 0,
                    i := 3, flooding := true }]
    consumers := [consumerAEnd] }

/-! ### Scenario A always can finish -/

/-- One where the producer holds the mutex. -/
def PPc.mutex : PPc → Int
  | .write | .advance | .postMutex | .eWrite | .eAdvance | .ePostMutex => 1
  | _ => 0

/-- One where the consumer holds the mutex. -/
def CPc.mutex : CPc → Int
  | .read | .advance | .postMutex => 1
  | _ => 0

/-- One between the producer's `active_producers_count++` and its final
decrement. -/
def Producer.live (p : Producer) : Int :=
  match p.pc with
  | .openFile | .loopTop | .waitEmpty | .waitMutex | .write | .advance | .postMutex
  | .postFull | .afterLoop | .dec => 1
  | .eWaitEmpty | .eWaitMutex | .eWrite | .eAdvance | .ePostMutex | .ePostFull =>
      if p.flooding then 0 else 1
  | _ => 0

/-- More of the invariant of scenario A: the mutex, the live-producer count,
the initialisation flag, the value read by the decrement, and the counter seen
by a consumer that waits for a full slot. -/
structure InvB (sh : Shared) (p : Producer) (c : Consumer) : Prop where
  mutex_eq : sh.sem_mutex + p.pc.mutex + c.pc.mutex = 1
  active_eq : sh.active_producers_count = p.live
  init : p.pc ≠ .cas → sh.initialized = true
  check : p.pc = .floodCheck → p.remaining_producers = 0
  ret : p.pc = .done → p.flooding = true
  waiting : c.pc = .waitFull → sh.eof_signals_received ≤ 1

/-- An upper bound on the statements the producer of scenario A still has to
run. -/
def producerRank (p : Producer) : Nat :=
  match p.pc with
  | .cas => 130
  | .resetHead => 129
  | .resetTail => 128
  | .resetActive => 127
  | .resetEof => 126
  | .incr => 125
  | .openFile => 124
  | .loopTop => 81 + (6 - p.words_produced) * 7
  | .waitEmpty => 80 + (6 - p.words_produced) * 7
  | .waitMutex => 79 + (6 - p.words_produced) * 7
  | .write => 78 + (6 - p.words_produced) * 7
  | .advance => 77 + (6 - p.words_produced) * 7
  | .postMutex => 83 + (6 - p.words_produced) * 7
  | .postFull => 82 + (6 - p.words_produced) * 7
  | .afterLoop => 80
  | .eWaitEmpty => if p.flooding then (10 - p.i) * 7 else 79
  | .eWaitMutex => if p.flooding then (10 - p.i) * 7 - 1 else 78
  | .eWrite => if p.flooding then (10 - p.i) * 7 - 2 else 77
  | .eAdvance => if p.flooding then (10 - p.i) * 7 - 3 else 76
  | .ePostMutex => if p.flooding then (10 - p.i) * 7 - 4 else 75
  | .ePostFull => if p.flooding then (10 - p.i) * 7 - 5 else 74
  | .dec => 73
  | .floodCheck => 72
  | .floodLoop => (10 - p.i) * 7 + 1
  | _ => 0

/-- Position of the consumer in its loop, counted down. -/
def CPc.rank : CPc → Nat
  | .waitInit => 19
  | .recheck => 18
  | .recheckActive => 17
  | .loopTop => 14
  | .checkActive => 13
  | .waitFull => 12
  | .waitMutex => 11
  | .read => 10
  | .advance => 9
  | .postMutex => 8
  | .postEmpty => 7
  | .test => 6
  | .incEof => 5
  | .record => 5
  | _ => 0

/-- The measure that decreases along the schedule "producer first": the
producer's remaining statements, then the items the consumer has yet to deal
with, then its position in the loop. -/
def measureA (s : State) : Nat :=
  (s.producers.map producerRank).sum * 400 +
    (s.consumers.map (fun c => (17 - consumed s.sh c) * 20 + c.pc.rank)).sum

/-- The whole invariant of scenario A on a state. -/
def StateInvAB (s : State) : Prop :=
  ∃ p c, s.producers = [p] ∧ s.consumers = [c] ∧ InvA s.sh p c ∧ InvB s.sh p c

/-! ## The consumer's output file (`consumer.cpp`, lines 186-196) -/

/-- The loop of `operator<<` for a non-negative `int`: the decimal digits of
`n`, most significant first, in front of `acc`; `fuel` bounds the number of
digits. -/
def decimalCore : Nat → Nat → List Nat → List Nat
  | 0, _, acc => acc
  | fuel + 1, n, acc =>
      if n / 10 = 0 then (48 + n % 10) :: acc
      else decimalCore fuel (n / 10) ((48 + n % 10) :: acc)

/-- What `outfile << count` writes for a count that is not negative. -/
def decimal (n : Nat) : Word := decimalCore (n + 1) n []

/-- The bytes of the output file: for each entry of `wordCounts`, in the order
the map lists them, the word, a tab, the count and a newline (line 193). -/
def writeTable (wordCounts : List (Word × Nat)) : List Nat :=
  wordCounts.flatMap (fun e => e.1 ++ [9] ++ decimal e.2 ++ [10])

/-! ## The aggregator (`aggregator.cpp`) -/

/-- Bounds of the C++ `int`. -/
def INT_MAX : Int := 2147483647

/-- Lower bound of the C++ `int`. -/
def INT_MIN : Int := -2147483648

/-- An `int` sum as the usual targets compute it: the result modulo 2^32 in the
range of `int`. -/
def wrapInt (x : Int) : Int := (x + 2147483648) % 4294967296 - 2147483648

/-- The C-locale `isspace`. -/
def isspace (c : Nat) : Bool := c == 32 || (9 ≤ c && c ≤ 13)

/-- The C-locale `isdigit`. -/
def isdigit (c : Nat) : Bool := 48 ≤ c && c ≤ 57

/-- The value of a string of decimal digits. -/
def digitsValue (ds : List Nat) : Nat := ds.foldl (fun v d => 10 * v + (d - 48)) 0

/-- How `std::stoi` returns: a value, or one of its two exceptions. -/
inductive Stoi where
  | value (v : Int)
  | invalid_argument
  | out_of_range
deriving DecidableEq

/-- The function `std::stoi(str)` in base 10: leading white space is skipped,
an optional sign is read, then the longest run of digits; what follows is
ignored.  No digit: `invalid_argument`; a value outside `int`:
`out_of_range`. -/
def stoi (str : Word) : Stoi :=
  let s1 := str.dropWhile isspace
  let negative := s1.head? == some 45
  let s2 := if s1.head? == some 45 || s1.head? == some 43 then s1.drop 1 else s1
  let ds := s2.takeWhile isdigit
  if ds.isEmpty then .invalid_argument
  else
    let v : Int := if negative then -(digitsValue ds : Int) else (digitsValue ds : Int)
    if INT_MIN ≤ v ∧ v ≤ INT_MAX then .value v else .out_of_range

/-- The lines `std::getline` yields from the rest of a file; `cur` holds, in
reverse, the bytes of the line being read. -/
def getlinesFrom : List Nat → Word → List Word
  | [], cur => if cur.isEmpty then [] else [cur.reverse]
  | c :: rest, cur =>
      if c = 10 then cur.reverse :: getlinesFrom rest []
      else getlinesFrom rest (c :: cur)

/-- The lines the loop `while (std::getline(infile, line))` sees. -/
def getlines (content : List Nat) : List Word := getlinesFrom content []

/-- What the body of the loop (lines 46-60) makes of a line. -/
inductive Line where
  /-- lines 48-52: a word and a count -/
  | record (word : Word) (count : Int)
  /-- line 53: `std::invalid_argument` -/
  | invalidNumber
  /-- line 55: `std::out_of_range` -/
  | numberOutOfRange
  /-- line 59: no tab in the line -/
  | malformed
deriving DecidableEq

/-- Lines 46-60: the line is split at its first tab, and `std::stoi` reads the
count from what follows the tab. -/
def parseLine (line : Word) : Line :=
  if 9 ∈ line then
    match stoi ((line.dropWhile (fun c => c != 9)).drop 1) with
    | .value count => .record (line.takeWhile (fun c => c != 9)) count
    | .invalid_argument => .invalidNumber
    | .out_of_range => .numberOutOfRange
  else .malformed

/-- The statement `all_word_counts[word] += count` on the map, kept as a list of
pairs in order of first insertion. -/
def addCount : List (Word × Int) → Word → Int → List (Word × Int)
  | [], word, count => [(word, wrapInt (0 + count))]
  | (k, n) :: rest, word, count =>
      if k = word then (k, wrapInt (n + count)) :: rest
      else (k, n) :: addCount rest word count

/-- The two accumulators of `main`. -/
structure Totals where
  all_word_counts : List (Word × Int)
  total_words_processed_across_consumers : Int
deriving DecidableEq

/-- Lines 51-52 for one record. -/
def addRecord (t : Totals) (r : Word × Int) : Totals :=
  { all_word_counts := addCount t.all_word_counts r.1 r.2
    total_words_processed_across_consumers :=
      wrapInt (t.total_words_processed_across_consumers + r.2) }

/-- The body of the loop of line 45 for one line: a record is added, any other
line is reported and skipped. -/
def readLine (t : Totals) (line : Word) : Totals :=
  match parseLine line with
  | .record word count => addRecord t (word, count)
  | _ => t

/-- An entry of the scanned directory: its file name, whether it is a regular
file, whether it opens for reading, and its bytes. -/
structure DirEntry where
  name : Word
  regular : Bool
  openable : Bool
  content : List Nat
deriving DecidableEq

/-- The bytes of `"consumer_output_"` (the source's `file_prefix`). -/
def outputNameStart : Word := ascii "consumer_output_"

/-- The bytes of `".txt"` (the source's `file_suffix`). -/
def outputNameEnd : Word := ascii ".txt"

/-- The test of lines 33-35 on a file name. -/
def matchesPattern (filename : Word) : Bool :=
  filename.take outputNameStart.length == outputNameStart &&
    decide (outputNameStart.length + outputNameEnd.length < filename.length) &&
    filename.drop (filename.length - outputNameEnd.length) == outputNameEnd

/-- The lines the aggregator reads from one directory entry (lines 29-45): none
unless the entry is a regular file with a matching name that opens. -/
def linesOf (e : DirEntry) : List Word :=
  if e.regular && matchesPattern e.name && e.openable then getlines e.content else []

/-- Lines 28-65: every entry of the directory, in the order the directory lists
them. -/
def readDirectory (dir : List DirEntry) : Totals :=
  dir.foldl (fun t e => (linesOf e).foldl readLine t)
    { all_word_counts := [], total_words_processed_across_consumers := 0 }

/-- The comparison `cmp` of lines 11-13. -/
def cmp (a b : Word × Int) : Bool := decide (b.2 < a.2)

/-- What the source leaves to the standard library: the order in which the
loop of line 78 lists the entries of the `std::unordered_map` (given in order
of first insertion), and the result of `std::sort` with `cmp`. -/
structure Library where
  iterate : List (Word × Int) → List (Word × Int)
  sort : List (Word × Int) → List (Word × Int)

/-- What the C++ standard says of them: the loop lists every entry once, and
`std::sort` rearranges its range so that no element is before one that `cmp`
puts first. -/
structure Library.Conforming (L : Library) : Prop where
  iterate_perm : ∀ m, (L.iterate m).Perm m
  sort_perm : ∀ l, (L.sort l).Perm l
  sort_sorted : ∀ l, (L.sort l).Pairwise (fun a b => cmp b a = false)

/-- What `aggregated_word_counts.txt` holds after its title: the number of
unique words, the total, and the lines `word: count` in order. -/
structure Report where
  unique_words : Nat
  total : Int
  sorted_words : List (Word × Int)
deriving DecidableEq

/-- The function `main`: `none` when no record was read (lines 71-74: nothing is
written), else the report. -/
def aggregate (L : Library) (dir : List DirEntry) : Option Report :=
  let t := readDirectory dir
  if t.all_word_counts.isEmpty then none
  else
    some { unique_words := (L.sort (L.iterate t.all_word_counts)).length
           total := t.total_words_processed_across_consumers
           sorted_words := L.sort (L.iterate t.all_word_counts) }

/-- A library in which the map lists its entries in order of first insertion
and the sort is a stable insertion sort. -/
def insertionOrderLibrary : Library :=
  { iterate := fun m => m
    sort := fun l => l.insertionSort (fun a b => b.2 ≤ a.2) }

/-- A library in which the map lists the entry inserted last first and the
sort is a stable insertion sort. -/
def reverseOrderLibrary : Library :=
  { iterate := fun m => m.reverse
    sort := fun l => l.insertionSort (fun a b => b.2 ≤ a.2) }

/-! ### The claims' vocabulary for the aggregator -/

/-- All the lines the aggregator reads, in the order it reads them. -/
def linesRead (dir : List DirEntry) : List Word := dir.flatMap linesOf

/-- The record the loop body adds for a line, if it adds one. -/
def recordOf (line : Word) : Option (Word × Int) :=
  match parseLine line with
  | .record word count => some (word, count)
  | _ => none

/-- The records the aggregator adds, in order. -/
def recordsRead (dir : List DirEntry) : List (Word × Int) :=
  (linesRead dir).filterMap recordOf

/-- A line of the form token, tab, decimal count: it holds a tab, and what
follows the first tab is a non-empty string of digits. -/
def wellFormedLine (line : Word) : Bool :=
  decide (9 ∈ line) &&
    !((line.dropWhile (fun c => c != 9)).drop 1).isEmpty &&
    ((line.dropWhile (fun c => c != 9)).drop 1).all isdigit

/-- The token and the count a well-formed line states. -/
def lineRecord (line : Word) : Word × Int :=
  (line.takeWhile (fun c => c != 9),
    (digitsValue ((line.dropWhile (fun c => c != 9)).drop 1) : Int))

/-- The records stated by the lines read. -/
def statedRecords (dir : List DirEntry) : List (Word × Int) :=
  (linesRead dir).map lineRecord

/-- The sum of the counts of the records of `word`. -/
def sumFor (records : List (Word × Int)) (word : Word) : Int :=
  ((records.filter (fun r => decide (r.1 = word))).map Prod.snd).sum

/-- The sum of all the counts. -/
def sumAll (records : List (Word × Int)) : Int := (records.map Prod.snd).sum

/-- The value `all_word_counts` holds for `word` (0 when it is not a key). -/
def valueOf : List (Word × Int) → Word → Int
  | [], _ => 0
  | (k, n) :: rest, word => if k = word then n else valueOf rest word

/-- The accumulators `t` hold the tally of the records `rs`: one key for each
word of `rs`, with the `int` sum of its counts, and the `int` sum of all. -/
structure TallyOf (t : Totals) (rs : List (Word × Int)) : Prop where
  nodup : (t.all_word_counts.map Prod.fst).Nodup
  keys : ∀ w, w ∈ t.all_word_counts.map Prod.fst ↔ w ∈ rs.map Prod.fst
  value : ∀ w, valueOf t.all_word_counts w = wrapInt (sumFor rs w)
  total : t.total_words_processed_across_consumers = wrapInt (sumAll rs)

/-- What C11 says of a report `r` for the records `rs`: every word once, with
the sum of its counts, in non-increasing order of count, under the sum of all
counts. -/
def ReportOf (r : Report) (rs : List (Word × Int)) : Prop :=
  (r.sorted_words.map Prod.fst).Nodup ∧
  (∀ w c, (w, c) ∈ r.sorted_words ↔ w ∈ rs.map Prod.fst ∧ c = sumFor rs w) ∧
  r.sorted_words.Pairwise (fun a b => b.2 ≤ a.2) ∧
  r.total = sumAll rs ∧
  r.unique_words = r.sorted_words.length

/-- A directory with one consumer output file, which holds no line (the file
of a consumer that recorded no word). -/
def emptyOutputs : List DirEntry :=
  [{ name := ascii "consumer_output_c1.txt", regular := true, openable := true, content := [] }]

/-- A consumer output file with the one line `a`, tab, `1`. -/
def fileA : DirEntry :=
  { name := ascii "consumer_output_c1.txt", regular := true, openable := true
    content := ascii "a\t1\n" }

/-- A consumer output file with the one line `b`, tab, `1`. -/
def fileB : DirEntry :=
  { name := ascii "consumer_output_c2.txt", regular := true, openable := true
    content := ascii "b\t1\n" }

/-- Two consumer output files, one with the table of scenario A and one that
counts `cat` five times and `zz` once. -/
def twoOutputs : List DirEntry :=
  [{ name := ascii "consumer_output_c1.txt", regular := true, openable := true
     content := writeTable expectedTableA },
   { name := ascii "consumer_output_c2.txt", regular := true, openable := true
     content := ascii "cat\t5\nzz\t1\n" }]

/-! ## Interrupted waits and the SIGINT handler -/

/-- The signal discipline of the two programs.  The only handler they install
is the one for SIGINT (producer.cpp lines 23-26 and 103, consumer.cpp lines
21-24 and 60); it clears `running`, and a `sem_wait` returns EINTR only after a
handler has run in its process.  So in a run every interrupted return of a
process follows a delivery of SIGINT to that process.  `sp` and `sc` list the
producers and the consumers SIGINT was delivered to so far. -/
def interruptsFollowSigint (sp sc : List Nat) : List Label → Bool
  | [] => true
  | .sigintProd i :: tr => interruptsFollowSigint (i :: sp) sc tr
  | .sigintCons j :: tr => interruptsFollowSigint sp (j :: sc) tr
  | .prod i r :: tr => (r != .eintr || decide (i ∈ sp)) && interruptsFollowSigint sp sc tr
  | .cons j r :: tr => (r != .eintr || decide (j ∈ sc)) && interruptsFollowSigint sp sc tr

set_option maxRecDepth 100000

/-! ## Runs -/

theorem exec_invariant (P : State → Prop)
    (hstep : ∀ s l s1, P s → step s l = some s1 → P s1)
    (s : State) (tr : List Label) (s1 : State) (h0 : P s) (h : exec s tr = some s1) : P s1 := by
  induction tr generalizing s with
  | nil => simp only [exec, Option.some.injEq] at h; exact h ▸ h0
  | cons l tr ih =>
    simp only [exec] at h
    cases hs : step s l with
    | none => simp [hs] at h
    | some s2 => rw [hs] at h; exact ih s2 (hstep s l s2 h0 hs) h

theorem sumOver_set {α : Type} (f : α → Int) (l : List α) (i : Nat) (a x : α)
    (h : l[i]? = some a) : sumOver f (l.set i x) = sumOver f l - f a + f x := by
  induction l generalizing i with
  | nil => simp at h
  | cons b l ih =>
    cases i with
    | zero =>
      simp only [List.getElem?_cons_zero, Option.some.injEq] at h
      subst h
      simp only [sumOver, List.set_cons_zero, List.map_cons, List.sum_cons]
      omega
    | succ i =>
      simp only [List.getElem?_cons_succ] at h
      have := ih i h
      simp only [sumOver, List.set_cons_succ, List.map_cons, List.sum_cons] at this ⊢
      omega

theorem sumOver_nonneg {α : Type} (f : α → Int) (l : List α) (h : ∀ a, 0 ≤ f a) :
    0 ≤ sumOver f l := by
  induction l with
  | nil => simp [sumOver]
  | cons b l ih =>
    have := h b
    simp only [sumOver, List.map_cons, List.sum_cons] at ih ⊢
    omega

theorem sumOver_eq_zero {α : Type} (f : α → Int) (l : List α) (h : ∀ a ∈ l, f a = 0) :
    sumOver f l = 0 := by
  induction l with
  | nil => simp [sumOver]
  | cons b l ih =>
    have h1 := h b (List.mem_cons_self _ _)
    have h2 := ih (fun a ha => h a (List.mem_cons_of_mem _ ha))
    simp only [sumOver, List.map_cons, List.sum_cons] at h2 ⊢
    omega

theorem sumOver_map_const {α β : Type} (f : β → Int) (g : α → β) (l : List α)
    (h : ∀ a, f (g a) = 0) : sumOver f (l.map g) = 0 := by
  apply sumOver_eq_zero
  intro b hb
  obtain ⟨a, _, rfl⟩ := List.mem_map.mp hb
  exact h a

/-! ## Slot permits: `sem_empty`, `sem_full` and the processes in between -/

theorem producerStep_permit (sh sh1 : Shared) (p p1 : Producer) (r : Ret)
    (h : producerStep sh p r = some (sh1, p1)) (he : 0 ≤ sh.sem_empty) (hf : 0 ≤ sh.sem_full) :
    0 ≤ sh1.sem_empty ∧ 0 ≤ sh1.sem_full ∧
      sh1.sem_empty + sh1.sem_full + p1.pc.permit ≤ sh.sem_empty + sh.sem_full + p.pc.permit := by
  cases hpc : p.pc <;> cases r <;> simp only [producerStep, hpc, sendEofReturn] at h <;>
    (try split at h) <;> (try split at h) <;> (try split at h) <;>
    simp only [Option.some.injEq, Prod.mk.injEq, reduceCtorEq] at h <;>
    (try (obtain ⟨rfl, rfl⟩ := h)) <;>
    simp only [hpc, PPc.permit] <;> omega

theorem consumerStep_permit (sh sh1 : Shared) (c c1 : Consumer) (r : Ret)
    (h : consumerStep sh c r = some (sh1, c1)) (he : 0 ≤ sh.sem_empty) (hf : 0 ≤ sh.sem_full) :
    0 ≤ sh1.sem_empty ∧ 0 ≤ sh1.sem_full ∧
      sh1.sem_empty + sh1.sem_full + c1.pc.permit ≤ sh.sem_empty + sh.sem_full + c.pc.permit := by
  cases hpc : c.pc <;> cases r <;> simp only [consumerStep, hpc] at h <;>
    (try split at h) <;> (try split at h) <;>
    simp only [Option.some.injEq, Prod.mk.injEq, reduceCtorEq] at h <;>
    (try (obtain ⟨rfl, rfl⟩ := h)) <;>
    simp only [hpc, CPc.permit] <;> omega

/-- Every step is a statement of one producer, a statement of one consumer, or
a SIGINT that clears one `running` flag. -/
theorem step_cases (s : State) (l : Label) (s1 : State) (h : step s l = some s1) :
    (∃ i r p sh1 p1, l = .prod i r ∧ s.producers[i]? = some p ∧
        producerStep s.sh p r = some (sh1, p1) ∧
        s1 = { s with sh := sh1, producers := s.producers.set i p1 }) ∨
    (∃ j r c sh1 c1, l = .cons j r ∧ s.consumers[j]? = some c ∧
        consumerStep s.sh c r = some (sh1, c1) ∧
        s1 = { s with sh := sh1, consumers := s.consumers.set j c1 }) ∨
    (∃ i p, l = .sigintProd i ∧ s.producers[i]? = some p ∧
        s1 = { s with producers := s.producers.set i { p with running := false } }) ∨
    (∃ j c, l = .sigintCons j ∧ s.consumers[j]? = some c ∧
        s1 = { s with consumers := s.consumers.set j { c with running := false } }) := by
  cases l with
  | prod i r =>
    simp only [step] at h
    cases hp : s.producers[i]? with
    | none => simp [hp] at h
    | some p =>
      rw [hp] at h
      cases hps : producerStep s.sh p r with
      | none => simp [hps] at h
      | some res =>
        obtain ⟨sh1, p1⟩ := res
        simp only [hps, Option.some.injEq] at h
        exact Or.inl ⟨i, r, p, sh1, p1, rfl, hp, hps, h.symm⟩
  | cons j r =>
    simp only [step] at h
    cases hc : s.consumers[j]? with
    | none => simp [hc] at h
    | some c =>
      rw [hc] at h
      cases hcs : consumerStep s.sh c r with
      | none => simp [hcs] at h
      | some res =>
        obtain ⟨sh1, c1⟩ := res
        simp only [hcs, Option.some.injEq] at h
        exact Or.inr (Or.inl ⟨j, r, c, sh1, c1, rfl, hc, hcs, h.symm⟩)
  | sigintProd i =>
    simp only [step] at h
    cases hp : s.producers[i]? with
    | none => simp [hp] at h
    | some p =>
      simp only [hp, Option.some.injEq] at h
      exact Or.inr (Or.inr (Or.inl ⟨i, p, rfl, hp, h.symm⟩))
  | sigintCons j =>
    simp only [step] at h
    cases hc : s.consumers[j]? with
    | none => simp [hc] at h
    | some c =>
      simp only [hc, Option.some.injEq] at h
      exact Or.inr (Or.inr (Or.inr ⟨j, c, rfl, hc, h.symm⟩))

theorem permitInv_step (s : State) (l : Label) (s1 : State) (hi : PermitInv s)
    (h : step s l = some s1) : PermitInv s1 := by
  obtain ⟨he, hf, hsum⟩ := hi
  simp only [permits] at hsum
  rcases step_cases s l s1 h with ⟨i, r, p, sh1, p1, -, hp, hps, rfl⟩ |
    ⟨j, r, c, sh1, c1, -, hc, hcs, rfl⟩ | ⟨i, p, -, hp, rfl⟩ | ⟨j, c, -, hc, rfl⟩
  · obtain ⟨h1, h2, h3⟩ := producerStep_permit _ _ _ _ _ hps he hf
    refine ⟨h1, h2, ?_⟩
    have := sumOver_set (fun p => p.pc.permit) s.producers i p p1 hp
    simp only [permits] at this ⊢
    omega
  · obtain ⟨h1, h2, h3⟩ := consumerStep_permit _ _ _ _ _ hcs he hf
    refine ⟨h1, h2, ?_⟩
    have := sumOver_set (fun c => c.pc.permit) s.consumers j c c1 hc
    simp only [permits] at this ⊢
    omega
  · refine ⟨he, hf, ?_⟩
    have := sumOver_set (fun p => p.pc.permit) s.producers i p { p with running := false } hp
    simp only [permits] at this ⊢
    omega
  · refine ⟨he, hf, ?_⟩
    have := sumOver_set (fun c => c.pc.permit) s.consumers j c { c with running := false } hc
    simp only [permits] at this ⊢
    omega

theorem permits_initState (files : List (Bool × List Word)) (expected : List Int) :
    permits (initState files expected) = 0 := by
  simp only [permits, initState]
  rw [sumOver_map_const, sumOver_map_const]
  · rfl
  · intro a; rfl
  · intro a; rfl

theorem producer_permit_nonneg (pc : PPc) : 0 ≤ pc.permit := by
  cases pc <;> decide

theorem consumer_permit_nonneg (pc : CPc) : 0 ≤ pc.permit := by
  cases pc <;> decide

theorem permits_nonneg (s : State) : 0 ≤ permits s := by
  have h1 := sumOver_nonneg (fun p : Producer => p.pc.permit) s.producers
    (fun p => producer_permit_nonneg p.pc)
  have h2 := sumOver_nonneg (fun c : Consumer => c.pc.permit) s.consumers
    (fun c => consumer_permit_nonneg c.pc)
  simp only [permits]
  omega

theorem permitInv_initState (files : List (Bool × List Word)) (expected : List Int) :
    PermitInv (initState files expected) := by
  refine ⟨?_, ?_, ?_⟩
  · show (0 : Int) ≤ (MAX_WORD_ENTRIES : Int); decide
  · show (0 : Int) ≤ 0; decide
  · rw [permits_initState]
    show ((MAX_WORD_ENTRIES : Int) + 0 + 0 ≤ (MAX_WORD_ENTRIES : Int)); decide

/-- C2: in every state reachable from a fresh segment and the initial semaphore
values (10, 0, 1), by any interleaving of any producers and consumers (waits
that return interrupted or failed and SIGINT included), the value of the
full-slots semaphore is at least 0 and at most the capacity. -/
theorem full_slots_within_capacity (files : List (Bool × List Word)) (expected : List Int)
    (tr : List Label) (s : State) (h : exec (initState files expected) tr = some s) :
    0 ≤ s.sh.sem_full ∧ s.sh.sem_full ≤ MAX_WORD_ENTRIES := by
  have hinv : PermitInv s :=
    exec_invariant PermitInv permitInv_step _ tr s (permitInv_initState files expected) h
  obtain ⟨he, hf, hsum⟩ := hinv
  have := permits_nonneg s
  exact ⟨hf, by omega⟩

/-! ## Occupancy: pushes, dequeues and the two counting semaphores -/

theorem producerStep_account (sh sh1 : Shared) (p p1 : Producer) (r : Ret)
    (h : producerStep sh p r = some (sh1, p1))
    (hno : (p.pc == .waitMutex && r == .eintr && p.running) = false) :
    sh1.sem_empty + sh1.sem_full + p1.pc.permit = sh.sem_empty + sh.sem_full + p.pc.permit ∧
      sh1.sem_full + p1.pc.advanced =
        sh.sem_full + p.pc.advanced +
          (if (r == .ok && (p.pc == .advance || p.pc == .eAdvance)) = true then 1 else 0) := by
  cases hpc : p.pc <;> cases r <;> simp only [producerStep, hpc, sendEofReturn] at h <;>
    (try split at h) <;> (try split at h) <;> (try split at h) <;>
    simp only [Option.some.injEq, Prod.mk.injEq, reduceCtorEq] at h <;>
    (try (obtain ⟨rfl, rfl⟩ := h)) <;>
    simp_all [PPc.permit, PPc.advanced] <;> omega

theorem consumerStep_account (sh sh1 : Shared) (c c1 : Consumer) (r : Ret)
    (h : consumerStep sh c r = some (sh1, c1))
    (hno : (c.pc == .waitMutex && r == .eintr && c.running) = false) :
    sh1.sem_empty + sh1.sem_full + c1.pc.permit = sh.sem_empty + sh.sem_full + c.pc.permit ∧
      sh1.sem_full + c1.pc.taken +
          (if (r == .ok && c.pc == .advance) = true then 1 else 0) =
        sh.sem_full + c.pc.taken := by
  cases hpc : c.pc <;> cases r <;> simp only [consumerStep, hpc] at h <;>
    (try split at h) <;> (try split at h) <;>
    simp only [Option.some.injEq, Prod.mk.injEq, reduceCtorEq] at h <;>
    (try (obtain ⟨rfl, rfl⟩ := h)) <;>
    simp_all [CPc.permit, CPc.taken] <;> omega

theorem step_account (s : State) (l : Label) (s1 : State) (h : step s l = some s1)
    (hno : retriedMutexWait s l = false) :
    s1.sh.sem_empty + s1.sh.sem_full + permits s1 = s.sh.sem_empty + s.sh.sem_full + permits s ∧
      fullAccount s1 + (if isDequeue s l = true then 1 else 0) =
        fullAccount s + (if isPush s l = true then 1 else 0) := by
  rcases step_cases s l s1 h with ⟨i, r, p, sh1, p1, rfl, hp, hps, rfl⟩ |
    ⟨j, r, c, sh1, c1, rfl, hc, hcs, rfl⟩ | ⟨i, p, rfl, hp, rfl⟩ | ⟨j, c, rfl, hc, rfl⟩
  · simp only [retriedMutexWait, hp] at hno
    obtain ⟨h1, h2⟩ := producerStep_account _ _ _ _ _ hps hno
    have e1 := sumOver_set (fun p => p.pc.permit) s.producers i p p1 hp
    have e2 := sumOver_set (fun p => p.pc.advanced) s.producers i p p1 hp
    simp only [permits, fullAccount, isPush, isDequeue, hp] at e1 e2 ⊢
    constructor
    · omega
    · simp only [Bool.false_eq_true, if_false]; omega
  · simp only [retriedMutexWait, hc] at hno
    obtain ⟨h1, h2⟩ := consumerStep_account _ _ _ _ _ hcs hno
    have e1 := sumOver_set (fun c => c.pc.permit) s.consumers j c c1 hc
    have e2 := sumOver_set (fun c => c.pc.taken) s.consumers j c c1 hc
    simp only [permits, fullAccount, isPush, isDequeue, hc] at e1 e2 ⊢
    constructor
    · omega
    · simp only [Bool.false_eq_true, if_false]; omega
  · have e1 := sumOver_set (fun p => p.pc.permit) s.producers i p { p with running := false } hp
    have e2 := sumOver_set (fun p => p.pc.advanced) s.producers i p { p with running := false } hp
    simp only [permits, fullAccount, isPush, isDequeue] at e1 e2 ⊢
    constructor
    · omega
    · simp only [Bool.false_eq_true, if_false]; omega
  · have e1 := sumOver_set (fun c => c.pc.permit) s.consumers j c { c with running := false } hc
    have e2 := sumOver_set (fun c => c.pc.taken) s.consumers j c { c with running := false } hc
    simp only [permits, fullAccount, isPush, isDequeue] at e1 e2 ⊢
    constructor
    · omega
    · simp only [Bool.false_eq_true, if_false]; omega

theorem execAvoiding_account (s : State) (tr : List Label) (s1 : State)
    (h : execAvoiding retriedMutexWait s tr = some s1) :
    s1.sh.sem_empty + s1.sh.sem_full + permits s1 = s.sh.sem_empty + s.sh.sem_full + permits s ∧
      fullAccount s1 + (countSteps isDequeue s tr : Int) =
        fullAccount s + (countSteps isPush s tr : Int) := by
  induction tr generalizing s with
  | nil =>
    simp only [execAvoiding, Option.some.injEq] at h
    subst h
    simp [countSteps]
  | cons l tr ih =>
    simp only [execAvoiding] at h
    cases hb : retriedMutexWait s l with
    | true => simp [hb] at h
    | false =>
      simp only [hb, Bool.false_eq_true, if_false] at h
      cases hs : step s l with
      | none => simp [hs] at h
      | some s2 =>
        rw [hs] at h
        obtain ⟨a1, a2⟩ := step_account s l s2 hs hb
        obtain ⟨b1, b2⟩ := ih s2 h
        simp only [countSteps, hs]
        constructor
        · omega
        · push_cast
          split_ifs at a2 ⊢ <;> omega

theorem fullAccount_initState (files : List (Bool × List Word)) (expected : List Int) :
    fullAccount (initState files expected) = 0 := by
  simp only [fullAccount, initState]
  rw [sumOver_map_const, sumOver_map_const]
  · rfl
  · intro a; rfl
  · intro a; rfl

theorem fullAccount_quiescent (s : State) (h : quiescent s) :
    fullAccount s = s.sh.sem_full ∧ permits s = 0 := by
  obtain ⟨hp, hc⟩ := h
  have h1 : sumOver (fun p : Producer => p.pc.permit) s.producers = 0 :=
    sumOver_eq_zero _ _ hp
  have h2 : sumOver (fun c : Consumer => c.pc.permit) s.consumers = 0 :=
    sumOver_eq_zero _ _ hc
  have h3 : sumOver (fun p : Producer => p.pc.advanced) s.producers = 0 := by
    apply sumOver_eq_zero
    intro p hmem
    have := hp p hmem
    revert this
    cases p.pc <;> simp [PPc.permit, PPc.advanced]
  have h4 : sumOver (fun c : Consumer => c.pc.taken) s.consumers = 0 := by
    apply sumOver_eq_zero
    intro c hmem
    have := hc c hmem
    revert this
    cases c.pc <;> simp [CPc.permit, CPc.taken]
  simp only [fullAccount, permits]
  omega

/-- C3, amended: along every run from a fresh segment in which no main-loop
`sem_wait(sem_mutex)` returns interrupted while `running` is true, the two slot
semaphores and the processes inside a push or dequeue always add up to the
capacity, pushes minus dequeues equals the full-slots value plus the consumers
that took it without having advanced `tail` plus the producers that advanced
`head` without having posted it, and so in every such state with no process
inside a push or a dequeue the occupied slots equal the full-slots value, which
equals the capacity minus the empty-slots value. -/
theorem occupancy_when_quiescent (files : List (Bool × List Word)) (expected : List Int)
    (tr : List Label) (s : State)
    (h : execAvoiding retriedMutexWait (initState files expected) tr = some s) :
    s.sh.sem_empty + s.sh.sem_full + permits s = MAX_WORD_ENTRIES ∧
      occupied (initState files expected) tr = fullAccount s ∧
      (quiescent s → OccupancyEqualities (initState files expected) tr s) := by
  obtain ⟨h1, h2⟩ := execAvoiding_account _ tr s h
  rw [permits_initState] at h1
  rw [fullAccount_initState] at h2
  have e0 : (initState files expected).sh.sem_empty = MAX_WORD_ENTRIES := rfl
  have f0 : (initState files expected).sh.sem_full = 0 := rfl
  rw [e0, f0] at h1
  refine ⟨by omega, by simp only [occupied]; omega, ?_⟩
  intro hq
  obtain ⟨q1, q2⟩ := fullAccount_quiescent s hq
  simp only [OccupancyEqualities, occupied]
  constructor <;> omega

/-- C2 at the demonstration run: after the push of `hi` the full-slots value
is 1, within the bounds. -/
theorem full_slots_within_capacity_witness :
    exec demoStart (List.replicate 14 (.prod 0 .ok)) = some demoPushed ∧
      0 ≤ demoPushed.sh.sem_full ∧ demoPushed.sh.sem_full ≤ MAX_WORD_ENTRIES :=
  ⟨by decide, full_slots_within_capacity [(true, [ascii "Hi!"])] [1]
    (List.replicate 14 (.prod 0 .ok)) demoPushed (by decide)⟩

/-- C3 as stated fails: once the producer has taken `sem_empty` and before it
posts `sem_full`, the empty-slots value is 9 and the full-slots value is 0, so
the full-slots value is not the capacity minus the empty-slots value. -/
theorem occupancy_equalities_fail_inside_push :
    exec demoStart (List.replicate 9 (.prod 0 .ok)) = some demoInsidePush ∧
      ¬ OccupancyEqualities demoStart (List.replicate 9 (.prod 0 .ok)) demoInsidePush := by
  refine ⟨by decide, ?_⟩
  unfold OccupancyEqualities
  decide

/-- C3, amended, at the demonstration run. -/
theorem occupancy_when_quiescent_witness :
    execAvoiding retriedMutexWait demoStart (List.replicate 14 (.prod 0 .ok)) = some demoPushed ∧
      (demoPushed.sh.sem_empty + demoPushed.sh.sem_full + permits demoPushed = MAX_WORD_ENTRIES ∧
        occupied demoStart (List.replicate 14 (.prod 0 .ok)) = fullAccount demoPushed ∧
        (quiescent demoPushed →
          OccupancyEqualities demoStart (List.replicate 14 (.prod 0 .ok)) demoPushed)) :=
  ⟨by decide, occupancy_when_quiescent [(true, [ascii "Hi!"])] [1]
    (List.replicate 14 (.prod 0 .ok)) demoPushed (by decide)⟩

/-! ## `cleanWord` and the sentinel -/

theorem cleanWord_foldl (acc rawWord : Word) :
    rawWord.foldl (fun cleaned c => if isalnum c then cleaned ++ [tolower c] else cleaned) acc =
      acc ++ cleanWordSpec rawWord := by
  induction rawWord generalizing acc with
  | nil => simp [cleanWordSpec]
  | cons c rest ih =>
    simp only [List.foldl_cons, ih, cleanWordSpec, List.filter_cons]
    cases hc : isalnum c <;> simp

theorem cleanWord_eq_spec (rawWord : Word) : cleanWord rawWord = cleanWordSpec rawWord := by
  simp [cleanWord, cleanWord_foldl]

theorem tolower_isalnum (c : Nat) (h : isalnum c = true) : isLowerOrDigit (tolower c) = true := by
  simp only [isalnum, Bool.or_eq_true, Bool.and_eq_true, decide_eq_true_eq] at h
  simp only [isLowerOrDigit, tolower, Bool.or_eq_true, Bool.and_eq_true, decide_eq_true_eq]
  split_ifs <;> omega

theorem cleanWordSpec_lower (rawWord : Word) (c : Nat) (h : c ∈ cleanWordSpec rawWord) :
    isLowerOrDigit c = true := by
  simp only [cleanWordSpec, List.mem_map, List.mem_filter] at h
  obtain ⟨x, ⟨_, hx⟩, rfl⟩ := h
  exact tolower_isalnum x hx

theorem storeWord_subset (w : Word) (c : Nat) (h : c ∈ storeWord w) : c ∈ w :=
  List.mem_of_mem_take ((List.takeWhile_sublist _).subset h)

theorem storeWord_no_nul (w : Word) (h : ∀ c ∈ w, c ≠ 0) :
    storeWord w = w.take (MAX_WORD_LENGTH - 1) := by
  simp only [storeWord]
  rw [List.takeWhile_eq_self_iff]
  intro c hc
  simpa using h c (List.mem_of_mem_take hc)

/-- C8: for every raw string, `cleanWord` returns its alphanumeric bytes, in
order, lowercased, so only lowercase letters and digits; the token stored in a
slot is that result cut to 254 bytes; it is never the sentinel `__EOF__`, and
the consumer's sentinel test is false on it. -/
theorem cleanWord_never_sentinel (rawWord : Word) :
    cleanWord rawWord = cleanWordSpec rawWord ∧
      (∀ c ∈ cleanWord rawWord, isLowerOrDigit c = true) ∧
      storeWord (cleanWord rawWord) = (cleanWord rawWord).take (MAX_WORD_LENGTH - 1) ∧
      storeWord (cleanWord rawWord) ≠ EOF_SIGNAL_WORD ∧
      isEofEntry (storeWord (cleanWord rawWord)) = false := by
  have hlow : ∀ c ∈ cleanWord rawWord, isLowerOrDigit c = true := by
    intro c hc
    rw [cleanWord_eq_spec] at hc
    exact cleanWordSpec_lower rawWord c hc
  have hne : storeWord (cleanWord rawWord) ≠ EOF_SIGNAL_WORD := by
    intro heq
    have h95 : (95 : Nat) ∈ storeWord (cleanWord rawWord) := by
      rw [heq]; decide
    have := hlow 95 (storeWord_subset _ _ h95)
    revert this
    decide
  refine ⟨cleanWord_eq_spec rawWord, hlow, ?_, hne, ?_⟩
  · apply storeWord_no_nul
    intro c hc h0
    subst h0
    have := hlow 0 hc
    revert this
    decide
  · simpa [isEofEntry] using hne

/-! ## The live-producer count -/

/-- C4 on the code: with two producers on a fresh segment, producer 0's
`active_producers_count.store(0)` can run after producer 1's increment; after
both final decrements the count is -1, not 0. -/
theorem active_count_negative_after_init_race :
    exec raceStart raceRun = some raceEnd ∧
      raceEnd.sh.active_producers_count = -1 ∧
      raceEnd.producers.map (fun p => p.pc) = [.floodCheck, .floodCheck] := by
  decide

/-! ## Interrupted waits -/

/-- The `continue` branches of lines 193 and 206 of the producer and of line
142 of the consumer, in runs that are outside the signal discipline
`interruptsFollowSigint`: were a wait to return EINTR with `running` still
true, the producer would read the next word instead of repeating the wait (of
`a`, `b`, `c` only `c` is in the buffer), the permit taken for `b` would not go
back (`sem_empty` is 8 with one slot in use and no process inside a push), and
the consumer would lose its permit of `sem_full` (0 with `hi` unread, no
further step). -/
theorem continue_branches_outside_discipline :
    interruptsFollowSigint [] [] interruptRun = false ∧
    interruptsFollowSigint [] [] consumerInterruptRun = false ∧
    (exec interruptStart interruptRun = some interruptEnd ∧
      interruptEnd.sh.sem_empty + interruptEnd.sh.sem_full + permits interruptEnd = 9) ∧
    (exec demoStart consumerInterruptRun = some consumerInterruptEnd ∧
      step consumerInterruptEnd (.cons 0 .ok) = none) := by
  decide

/-! ## The counter `eof_signals_received` -/

theorem countSteps_balance (Φ : State → Int) (f g : State → Label → Bool)
    (hstep : ∀ s l s1, step s l = some s1 →
      Φ s1 + (if f s l = true then 1 else 0) = Φ s + (if g s l = true then 1 else 0))
    (s : State) (tr : List Label) (s1 : State) (h : exec s tr = some s1) :
    Φ s1 + (countSteps f s tr : Int) = Φ s + (countSteps g s tr : Int) := by
  induction tr generalizing s with
  | nil =>
    simp only [exec, Option.some.injEq] at h
    subst h
    simp [countSteps]
  | cons l tr ih =>
    simp only [exec] at h
    cases hs : step s l with
    | none => simp [hs] at h
    | some s2 =>
      rw [hs] at h
      have a := hstep s l s2 hs
      have b := ih s2 h
      simp only [countSteps, hs]
      push_cast
      split_ifs at a ⊢ <;> omega

theorem consumerStep_eof (sh sh1 : Shared) (c c1 : Consumer) (r : Ret)
    (h : consumerStep sh c r = some (sh1, c1)) :
    sh1.eof_signals_received =
        sh.eof_signals_received + (if (r == .ok && c.pc == .incEof) = true then 1 else 0) ∧
      c1.pendingEof + (if (r == .ok && c.pc == .incEof) = true then 1 else 0) =
        c.pendingEof +
          (if (r == .ok && c.pc == .read && isEofEntry (sh.entries.getD sh.tail [])) = true
            then 1 else 0) ∧
      ((c.pc = .incEof → isEofEntry c.currentEntry = true) →
        c1.pc = .incEof → isEofEntry c1.currentEntry = true) := by
  cases hpc : c.pc <;> cases r <;> simp only [consumerStep, hpc] at h <;>
    (try split at h) <;> (try split at h) <;>
    simp only [Option.some.injEq, Prod.mk.injEq, reduceCtorEq] at h <;>
    (try (obtain ⟨rfl, rfl⟩ := h)) <;>
    simp_all [Consumer.pendingEof]

theorem step_pendingEof (s : State) (l : Label) (s1 : State) (h : step s l = some s1) :
    sumOver Consumer.pendingEof s1.consumers + (if isEofIncrement s l = true then 1 else 0) =
      sumOver Consumer.pendingEof s.consumers +
        (if isSentinelDequeue s l = true then 1 else 0) := by
  rcases step_cases s l s1 h with ⟨i, r, p, sh1, p1, rfl, hp, hps, rfl⟩ |
    ⟨j, r, c, sh1, c1, rfl, hc, hcs, rfl⟩ | ⟨i, p, rfl, hp, rfl⟩ | ⟨j, c, rfl, hc, rfl⟩
  · simp [isEofIncrement, isSentinelDequeue]
  · obtain ⟨-, h2, -⟩ := consumerStep_eof _ _ _ _ _ hcs
    have e := sumOver_set Consumer.pendingEof s.consumers j c c1 hc
    simp only [isEofIncrement, isSentinelDequeue, hc]
    omega
  · simp [isEofIncrement, isSentinelDequeue]
  · have e := sumOver_set Consumer.pendingEof s.consumers j c { c with running := false } hc
    simp only [isEofIncrement, isSentinelDequeue]
    have : Consumer.pendingEof { c with running := false } = Consumer.pendingEof c := rfl
    simp only [Bool.false_eq_true, if_false]
    omega

theorem incrementsOnSentinel_step (s : State) (l : Label) (s1 : State)
    (hi : IncrementsOnSentinel s) (h : step s l = some s1) : IncrementsOnSentinel s1 := by
  rcases step_cases s l s1 h with ⟨i, r, p, sh1, p1, rfl, hp, hps, rfl⟩ |
    ⟨j, r, c, sh1, c1, rfl, hc, hcs, rfl⟩ | ⟨i, p, rfl, hp, rfl⟩ | ⟨j, c, rfl, hc, rfl⟩
  · exact hi
  · intro c2 hmem
    rcases List.mem_or_eq_of_mem_set hmem with hm | rfl
    · exact hi c2 hm
    · obtain ⟨-, -, h3⟩ := consumerStep_eof _ _ _ _ _ hcs
      exact h3 (hi c (List.getElem?_mem hc))
  · exact hi
  · intro c2 hmem
    rcases List.mem_or_eq_of_mem_set hmem with hm | rfl
    · exact hi c2 hm
    · exact hi c (List.getElem?_mem hc)

theorem incrementsOnSentinel_initState (files : List (Bool × List Word)) (expected : List Int) :
    IncrementsOnSentinel (initState files expected) := by
  intro c hmem hpc
  simp only [initState, List.mem_map] at hmem
  obtain ⟨e, _, rfl⟩ := hmem
  simp [newConsumer] at hpc

theorem pendingEof_initState (files : List (Bool × List Word)) (expected : List Int) :
    sumOver Consumer.pendingEof (initState files expected).consumers = 0 := by
  simp only [initState]
  exact sumOver_map_const _ _ _ (fun a => rfl)

/-- C7, amended: along every run from a fresh segment, the number of
`eof_signals_received++` statements run plus the number of consumers that have
read a sentinel and not yet counted it equals the number of sentinels
dequeued; every consumer step leaves the counter unchanged except that
statement, which adds exactly one (so no consumer step decreases it); and the
consumer that runs it has the sentinel in `currentEntry` and is not between its
`sem_wait(sem_mutex)` and its `sem_post(sem_mutex)`: the increment is an atomic
increment made after the mutex has been released. -/
theorem eof_counter_counts_sentinels (files : List (Bool × List Word)) (expected : List Int)
    (tr : List Label) (s : State) (h : exec (initState files expected) tr = some s) :
    (countSteps isEofIncrement (initState files expected) tr : Int) +
          sumOver Consumer.pendingEof s.consumers =
        (countSteps isSentinelDequeue (initState files expected) tr : Int) ∧
      ∀ j r s1, step s (.cons j r) = some s1 →
        s1.sh.eof_signals_received =
            s.sh.eof_signals_received + (if isEofIncrement s (.cons j r) = true then 1 else 0) ∧
          s.sh.eof_signals_received ≤ s1.sh.eof_signals_received ∧
          (isEofIncrement s (.cons j r) = true →
            ∃ c, s.consumers[j]? = some c ∧ isEofEntry c.currentEntry = true ∧
              c.pc.holdsMutex = false) := by
  constructor
  · have := countSteps_balance (fun s => sumOver Consumer.pendingEof s.consumers)
      isEofIncrement isSentinelDequeue step_pendingEof _ tr s h
    simp only [pendingEof_initState] at this
    omega
  · intro j r s1 hs
    have hinv : IncrementsOnSentinel s :=
      exec_invariant IncrementsOnSentinel incrementsOnSentinel_step _ tr s
        (incrementsOnSentinel_initState files expected) h
    rcases step_cases s _ s1 hs with ⟨i, r, p, sh1, p1, hl, hp, hps, rfl⟩ |
      ⟨j2, r2, c, sh1, c1, hl, hc, hcs, rfl⟩ | ⟨i, p, hl, hp, rfl⟩ | ⟨j2, c, hl, hc, rfl⟩
    · cases hl
    · cases hl
      obtain ⟨h1, -, -⟩ := consumerStep_eof _ _ _ _ _ hcs
      simp only [isEofIncrement, hc]
      refine ⟨h1, ?_, ?_⟩
      · rw [h1]; split_ifs <;> omega
      · intro hinc
        simp only [Bool.and_eq_true, beq_iff_eq] at hinc
        refine ⟨c, rfl, hinv c (List.getElem?_mem hc) hinc.2, ?_⟩
        rw [hinc.2]; rfl
    · cases hl
    · cases hl

/-- C7 as stated fails in its third part: in the state where the consumer's
next statement is `eof_signals_received++` (which takes the counter from 0 to
1), the consumer has already posted the mutex, whose value is 1. -/
theorem eof_increment_outside_mutex :
    exec sentinelStart sentinelRun = some sentinelTested ∧
      step sentinelTested (.cons 0 .ok) = some sentinelCounted ∧
      sentinelTested.sh.eof_signals_received = 0 ∧
      sentinelCounted.sh.eof_signals_received = 1 ∧
      ¬ IncrementUnderMutex sentinelTested 0 := by
  refine ⟨by decide, by decide, by decide, by decide, ?_⟩
  intro h
  have := (h _ rfl rfl).2
  revert this
  decide

/-- C7, amended, at the run in which one consumer dequeues one sentinel and
counts it. -/
theorem eof_counter_counts_sentinels_witness :
    exec (initState [(true, [])] [1]) (sentinelRun ++ [.cons 0 .ok]) = some sentinelCounted ∧
      ((countSteps isEofIncrement (initState [(true, [])] [1]) (sentinelRun ++ [.cons 0 .ok]) : Int)
            + sumOver Consumer.pendingEof sentinelCounted.consumers =
          (countSteps isSentinelDequeue (initState [(true, [])] [1])
            (sentinelRun ++ [.cons 0 .ok]) : Int) ∧
        ∀ j r s1, step sentinelCounted (.cons j r) = some s1 →
          s1.sh.eof_signals_received =
              sentinelCounted.sh.eof_signals_received +
                (if isEofIncrement sentinelCounted (.cons j r) = true then 1 else 0) ∧
            sentinelCounted.sh.eof_signals_received ≤ s1.sh.eof_signals_received ∧
            (isEofIncrement sentinelCounted (.cons j r) = true →
              ∃ c, sentinelCounted.consumers[j]? = some c ∧ isEofEntry c.currentEntry = true ∧
                c.pc.holdsMutex = false)) :=
  ⟨by decide, eof_counter_counts_sentinels [(true, [])] [1] (sentinelRun ++ [.cons 0 .ok])
    sentinelCounted (by decide)⟩

/-! ## Termination protocol: two failing runs -/

/-- C1 on the code, two runs with two producers (words `a` and `b`) and one
consumer expecting 2 producers, in which the consumer stops with the table
`a: 1` although `a` and `b` were pushed.  (1) Producer 0 finishes before
producer 1 attaches: the consumer counts two of producer 0's sentinels, finds
the count 0 and stops; `b` is pushed afterwards.  (2) Producer 1 pushes `b`
into slot 0 before producer 0 runs its `head = 0`: producer 0's `a` overwrites
`b`. -/
theorem pushed_token_not_recorded :
    (exec pairStart lateRun = some lateEnd ∧
      lateEnd.consumers.map (fun c => c.pc) = [.done] ∧
      pushedWords pairStart lateRun = [ascii "a", ascii "b"] ∧
      recordedCount lateEnd (ascii "a") = 1 ∧
      recordedCount lateEnd (ascii "b") = 0) ∧
    (exec pairStart overwriteRun = some overwriteEnd ∧
      overwriteEnd.consumers.map (fun c => c.pc) = [.done] ∧
      pushedWords pairStart overwriteRun = [ascii "b", ascii "a"] ∧
      recordedCount overwriteEnd (ascii "a") = 1 ∧
      recordedCount overwriteEnd (ascii "b") = 0) := by
  decide

/-- C5 on the code, two runs in which every producer exhausts its source and
nobody is cancelled.  (1) Producer 1 starts after producer 0 has finished: the
only consumer has stopped, the buffer is full, and producer 1 waits on
`sem_empty` with no step left to anybody.  (2) One producer and twelve
consumers: the eleven sentinels release eleven consumers, and the twelfth
waits on `sem_full` with no step left to anybody. -/
theorem waits_forever_after_termination :
    (exec pairStart lateRun = some lateEnd ∧
      lateEnd.producers.map (fun p => (p.pc, p.input)) = [(.done, []), (.eWaitEmpty, [])] ∧
      ∀ l : Label, l.quiet = true → step lateEnd l = none) ∧
    (exec crowdStart crowdRun = some crowdEnd ∧
      crowdEnd.producers.map (fun p => (p.pc, p.input)) = [(.done, [])] ∧
      crowdEnd.consumers.map (fun c => c.pc) = List.replicate 11 .done ++ [.waitFull] ∧
      ∀ l : Label, l.quiet = true → step crowdEnd l = none) := by
  refine ⟨⟨by decide, by decide, ?_⟩, ⟨by decide, by decide, by decide, ?_⟩⟩
  · intro l hl
    cases l with
    | prod i r =>
      cases r <;> simp only [Label.quiet] at hl <;> try contradiction
      rcases i with _ | _ | i
      · rfl
      · rfl
      · rfl
    | cons j r =>
      cases r <;> simp only [Label.quiet] at hl <;> try contradiction
      rcases j with _ | j
      · rfl
      · rfl
    | sigintProd i => simp [Label.quiet] at hl
    | sigintCons j => simp [Label.quiet] at hl
  · intro l hl
    cases l with
    | prod i r =>
      cases r <;> simp only [Label.quiet] at hl <;> try contradiction
      rcases i with _ | i
      · rfl
      · rfl
    | cons j r =>
      cases r <;> simp only [Label.quiet] at hl <;> try contradiction
      rcases j with _ | _ | _ | _ | _ | _ | _ | _ | _ | _ | _ | _ | j
      all_goals rfl
    | sigintProd i => simp [Label.quiet] at hl
    | sigintCons j => simp [Label.quiet] at hl

/-! ## The statements a producer runs after its loop -/

theorem rawA_drop (k : Nat) (h : k < 6) :
    rawA.drop k = rawA.getD k [] :: rawA.drop (k + 1) ∧
      (cleanWord (rawA.getD k [])).isEmpty = false ∧
      storeWord (cleanWord (rawA.getD k [])) = itemsA.getD k [] := by
  have : ∀ k, k < 6 → (rawA.drop k = rawA.getD k [] :: rawA.drop (k + 1) ∧
      (cleanWord (rawA.getD k [])).isEmpty = false ∧
      storeWord (cleanWord (rawA.getD k [])) = itemsA.getD k []) := by decide
  exact this k h

theorem itemsA_sentinel (k : Nat) (h1 : 6 ≤ k) (h2 : k < 17) :
    itemsA.getD k [] = storeWord EOF_SIGNAL_WORD ∧ isEofEntry (itemsA.getD k []) = true := by
  have : ∀ k, k < 17 → 6 ≤ k → (itemsA.getD k [] = storeWord EOF_SIGNAL_WORD ∧
      isEofEntry (itemsA.getD k []) = true) := by decide
  exact this k h2 h1

theorem itemsA_word (k : Nat) (h : k < 6) :
    isEofEntry (itemsA.getD k []) = false ∧ bump (tableA k) (itemsA.getD k []) = tableA (k + 1) := by
  have : ∀ k, k < 6 → (isEofEntry (itemsA.getD k []) = false ∧
      bump (tableA k) (itemsA.getD k []) = tableA (k + 1)) := by decide
  exact this k h

theorem tableA_six : tableA 6 = expectedTableA := by decide

theorem producerA_step (sh sh1 : Shared) (p p1 : Producer)
    (h : producerStep sh p .ok = some (sh1, p1)) (hp : ProducerA p) : ProducerA p1 := by
  obtain ⟨hrun, hopen, hwp, hloc⟩ := hp
  cases hpc : p.pc <;> simp only [hpc] at hloc <;> try exact hloc.elim
  case loopTop =>
    simp only [producerStep, hpc, hrun, if_true] at h
    obtain ⟨hin, hfl⟩ := hloc
    rcases Nat.lt_or_ge p.words_produced 6 with hlt | hge
    · obtain ⟨d1, d2, d3⟩ := rawA_drop _ hlt
      rw [hin, d1] at h
      simp only [d2, Bool.false_eq_true, if_false, Option.some.injEq, Prod.mk.injEq] at h
      obtain ⟨rfl, rfl⟩ := h
      simp [ProducerA, hrun, hopen, hlt, hfl]
      omega
    · have h6 : p.words_produced = 6 := by omega
      have hnil : List.drop 6 rawA = [] := by decide
      rw [hin, h6, hnil] at h
      simp only [Option.some.injEq, Prod.mk.injEq] at h
      obtain ⟨rfl, rfl⟩ := h
      simp [ProducerA, hrun, hopen, h6, hfl]
  all_goals simp only [producerStep, hpc, sendEofReturn, hrun, hopen] at h
  all_goals (try split at h)
  all_goals simp only [Option.some.injEq, Prod.mk.injEq, reduceCtorEq] at h
  all_goals (try (obtain ⟨rfl, rfl⟩ := h))
  all_goals (simp_all [ProducerA, MAX_WORD_ENTRIES])
  all_goals (try omega)

theorem producerStep_effect (sh sh1 : Shared) (p p1 : Producer)
    (h : producerStep sh p .ok = some (sh1, p1)) (hp : ProducerA p) :
    (sh1.sem_empty + (p1.advances : Int) + p1.pc.permit - p1.pc.advanced =
        sh.sem_empty + (p.advances : Int) + p.pc.permit - p.pc.advanced) ∧
      (sh1.sem_full + p1.pc.advanced - (p1.advances : Int) =
        sh.sem_full + p.pc.advanced - (p.advances : Int)) ∧
      (0 ≤ sh.sem_empty → 0 ≤ sh1.sem_empty) ∧ (0 ≤ sh.sem_full → 0 ≤ sh1.sem_full) ∧
      (p1.advances + p1.pc.written =
        p.advances + p.pc.written + (if p.pc = .write ∨ p.pc = .eWrite then 1 else 0)) ∧
      p1.advances + p1.pc.written ≤ 17 ∧
      (sh.head = p.advances % MAX_WORD_ENTRIES → sh1.head = p1.advances % MAX_WORD_ENTRIES) ∧
      (sh1.tail = sh.tail ∨ (sh1.tail = 0 ∧ p.advances = 0 ∧ p.pc.advanced = 0)) ∧
      (sh1.eof_signals_received = sh.eof_signals_received ∨
        (sh1.eof_signals_received = 0 ∧ p.advances = 0 ∧ p.pc.advanced = 0)) ∧
      sh1.entries.length = sh.entries.length := by
  obtain ⟨hrun, hopen, hwp, hloc⟩ := hp
  cases hpc : p.pc <;> simp only [hpc] at hloc <;> try exact hloc.elim
  case loopTop =>
    simp only [producerStep, hpc, hrun, if_true] at h
    obtain ⟨hin, hfl⟩ := hloc
    rcases Nat.lt_or_ge p.words_produced 6 with hlt | hge
    · obtain ⟨d1, d2, d3⟩ := rawA_drop _ hlt
      rw [hin, d1] at h
      simp only [d2, Bool.false_eq_true, if_false, Option.some.injEq, Prod.mk.injEq] at h
      obtain ⟨rfl, rfl⟩ := h
      simp [Producer.advances, PPc.permit, PPc.advanced, PPc.written, hpc, hfl]
      omega
    · have h6 : p.words_produced = 6 := by omega
      have hnil : List.drop 6 rawA = [] := by decide
      rw [hin, h6, hnil] at h
      simp only [Option.some.injEq, Prod.mk.injEq] at h
      obtain ⟨rfl, rfl⟩ := h
      simp [Producer.advances, PPc.permit, PPc.advanced, PPc.written, hpc, hfl, h6]
  all_goals simp only [producerStep, hpc, sendEofReturn, hrun, hopen] at h
  all_goals (try split at h)
  all_goals simp only [Option.some.injEq, Prod.mk.injEq, reduceCtorEq] at h
  all_goals (try (obtain ⟨rfl, rfl⟩ := h))
  all_goals (simp_all [Producer.advances, PPc.permit, PPc.advanced, PPc.written, MAX_WORD_ENTRIES])
  all_goals (try omega)
  all_goals (cases hfl : p.flooding <;> simp_all <;> omega)

theorem producerStep_entries (sh sh1 : Shared) (p p1 : Producer)
    (h : producerStep sh p .ok = some (sh1, p1)) (hp : ProducerA p)
    (hhead : sh.head = p.advances % MAX_WORD_ENTRIES) :
    (p.pc ≠ .write ∧ p.pc ≠ .eWrite ∧ sh1.entries = sh.entries) ∨
      ((p.pc = .write ∨ p.pc = .eWrite) ∧ p.pc.written = 0 ∧
        sh1.entries = sh.entries.set (p.advances % MAX_WORD_ENTRIES) (itemsA.getD p.advances [])) := by
  obtain ⟨hrun, hopen, hwp, hloc⟩ := hp
  cases hpc : p.pc <;> simp only [hpc] at hloc <;> try exact hloc.elim
  case write =>
    simp only [producerStep, hpc, Option.some.injEq, Prod.mk.injEq] at h
    obtain ⟨rfl, rfl⟩ := h
    obtain ⟨hlt, hin, hcl, hfl⟩ := hloc
    obtain ⟨d1, d2, d3⟩ := rawA_drop _ hlt
    right
    have ha : p.advances = p.words_produced := by simp [Producer.advances, hpc, hfl]
    refine ⟨Or.inl rfl, rfl, ?_⟩
    simp only [hhead, ha, hcl, d3]
  case eWrite =>
    simp only [producerStep, hpc, Option.some.injEq, Prod.mk.injEq] at h
    obtain ⟨rfl, rfl⟩ := h
    obtain ⟨h6, hi⟩ := hloc
    right
    have ha : 6 ≤ p.advances ∧ p.advances < 17 := by
      cases hfl : p.flooding
      · simp [Producer.advances, hpc, hfl, h6]
      · have := hi hfl
        simp only [MAX_WORD_ENTRIES] at this
        simp [Producer.advances, hpc, hfl, h6]
        omega
    refine ⟨Or.inr rfl, rfl, ?_⟩
    simp only [hhead, (itemsA_sentinel _ ha.1 ha.2).1]
  case loopTop =>
    left
    simp only [producerStep, hpc, hrun, if_true] at h
    refine ⟨by simp, by simp, ?_⟩
    split at h
    · simp only [Option.some.injEq, Prod.mk.injEq] at h
      rw [← h.1]
    · split at h <;> simp only [Option.some.injEq, Prod.mk.injEq] at h <;> rw [← h.1]
  all_goals simp only [producerStep, hpc, sendEofReturn, hrun, hopen] at h
  all_goals (try split at h)
  all_goals simp only [Option.some.injEq, Prod.mk.injEq, reduceCtorEq] at h
  all_goals (try (obtain ⟨rfl, rfl⟩ := h))
  all_goals simp

theorem producerA_bound (p : Producer) (hp : ProducerA p) : p.advances + p.pc.written ≤ 17 := by
  obtain ⟨hrun, hopen, hwp, hloc⟩ := hp
  cases hpc : p.pc <;> simp only [hpc] at hloc <;> try exact hloc.elim
  all_goals (cases hfl : p.flooding <;>
    simp_all [Producer.advances, PPc.written, MAX_WORD_ENTRIES] <;> omega)

theorem consumerStep_effect (sh sh1 : Shared) (c c1 : Consumer)
    (h : consumerStep sh c .ok = some (sh1, c1)) (h0 : 0 ≤ sh.eof_signals_received) :
    (sh1.sem_empty + c1.pc.permit - ((consumed sh1 c1 + c1.pc.tailAhead : Nat) : Int) - c1.pc.taken =
        sh.sem_empty + c.pc.permit - ((consumed sh c + c.pc.tailAhead : Nat) : Int) - c.pc.taken) ∧
      (sh1.sem_full + ((consumed sh1 c1 + c1.pc.tailAhead : Nat) : Int) + c1.pc.taken =
        sh.sem_full + ((consumed sh c + c.pc.tailAhead : Nat) : Int) + c.pc.taken) ∧
      (0 ≤ sh.sem_empty → 0 ≤ sh1.sem_empty) ∧ (0 ≤ sh.sem_full → 0 ≤ sh1.sem_full) ∧
      (sh.tail = (consumed sh c + c.pc.tailAhead) % MAX_WORD_ENTRIES →
        sh1.tail = (consumed sh1 c1 + c1.pc.tailAhead) % MAX_WORD_ENTRIES) ∧
      sh1.head = sh.head ∧ sh1.entries = sh.entries := by
  cases hpc : c.pc <;> simp only [consumerStep, hpc] at h <;>
    (try split at h) <;> (try split at h) <;>
    simp only [Option.some.injEq, Prod.mk.injEq, reduceCtorEq] at h <;>
    (try (obtain ⟨rfl, rfl⟩ := h)) <;>
    simp_all [consumed, CPc.permit, CPc.taken, CPc.tailAhead, MAX_WORD_ENTRIES] <;>
    omega

theorem consumerA_step (sh sh1 : Shared) (c c1 : Consumer)
    (h : consumerStep sh c .ok = some (sh1, c1)) (hc : ConsumerA sh c)
    (hread : c.pc = .read → sh.entries.getD sh.tail [] = itemsA.getD (consumed sh c) [])
    (hbound : c.pc.holdsItem = true → consumed sh c < 17) : ConsumerA sh1 c1 := by
  obtain ⟨h0, hwp, h6, htab, hexp, hitem, hinc, hrec, hrun, hloop, hnf⟩ := hc
  cases hpc : c.pc <;> try exact absurd hpc hnf
  case record =>
    simp only [consumerStep, hpc, Option.some.injEq, Prod.mk.injEq] at h
    obtain ⟨rfl, rfl⟩ := h
    have hcur := hitem (by rw [hpc]; rfl)
    have hne := hrec hpc
    have hb := hbound (by rw [hpc]; rfl)
    rw [hcur] at hne
    have hlt : consumed sh c < 6 := by
      rcases Nat.lt_or_ge (consumed sh c) 6 with h1 | h1
      · exact h1
      · rw [(itemsA_sentinel _ h1 hb).2] at hne
        cases hne
    have he0 : sh.eof_signals_received = 0 := by
      simp only [consumed] at hlt
      omega
    have hcw : consumed sh c = c.words_processed := by simp [consumed, he0]
    rw [hcw] at hcur hlt
    simp only [ConsumerA, he0]
    refine ⟨by omega, by omega, by omega, ?_, hexp, by simp [CPc.holdsItem], by simp, by simp,
      ?_, ?_, by simp⟩
    · rw [htab, hcur]
      exact (itemsA_word _ hlt).2
    · intro hh
      simp only [reduceCtorEq, or_false, false_or] at hh
      have := hrun (Or.inl hh)
      omega
    · intro hh
      have := hloop hh
      simp [hpc] at this
  case incEof =>
    simp only [consumerStep, hpc, Option.some.injEq, Prod.mk.injEq] at h
    obtain ⟨rfl, rfl⟩ := h
    have hcur := hitem (by rw [hpc]; rfl)
    have hne := hinc hpc
    rw [hcur] at hne
    have hge : 6 ≤ consumed sh c := by
      rcases Nat.lt_or_ge (consumed sh c) 6 with h1 | h1
      · rw [(itemsA_word _ h1).1] at hne
        cases hne
      · exact h1
    have hw6 : c.words_processed = 6 := by
      simp only [consumed] at hge
      by_cases he : 1 ≤ sh.eof_signals_received
      · exact h6 he
      · omega
    simp only [ConsumerA]
    refine ⟨by omega, by omega, fun _ => hw6, htab, hexp, by simp [CPc.holdsItem], by simp,
      by simp, fun _ => by omega, ?_, by simp⟩
    intro hh
    have := hloop hh
    simp [hpc] at this
  all_goals simp only [consumerStep, hpc] at h
  all_goals (try split at h)
  all_goals (try split at h)
  all_goals simp only [Option.some.injEq, Prod.mk.injEq, reduceCtorEq] at h
  all_goals (try (obtain ⟨rfl, rfl⟩ := h))
  all_goals (simp_all [ConsumerA, consumed, CPc.holdsItem])

theorem exec_invariant_on (ok : Label → Bool) (P : State → Prop)
    (hstep : ∀ s l s1, ok l = true → P s → step s l = some s1 → P s1)
    (s : State) (tr : List Label) (s1 : State) (hall : ∀ l ∈ tr, ok l = true)
    (h0 : P s) (h : exec s tr = some s1) : P s1 := by
  induction tr generalizing s with
  | nil => simp only [exec, Option.some.injEq] at h; exact h ▸ h0
  | cons l tr ih =>
    simp only [exec] at h
    cases hs : step s l with
    | none => simp [hs] at h
    | some s2 =>
      rw [hs] at h
      exact ih s2 (fun x hx => hall x (List.mem_cons_of_mem _ hx))
        (hstep s l s2 (hall l (List.mem_cons_self _ _)) h0 hs) h

theorem consumerA_congr (sh sh1 : Shared) (c : Consumer)
    (he : sh1.eof_signals_received = sh.eof_signals_received) (hc : ConsumerA sh c) :
    ConsumerA sh1 c := by
  simpa [ConsumerA, consumed, he] using hc

theorem producer_written_le (pc : PPc) : (pc.written : Int) ≤ pc.permit - pc.advanced := by
  cases pc <;> decide

theorem producer_advanced_nonneg (pc : PPc) : 0 ≤ pc.advanced := by
  cases pc <;> decide

theorem consumer_taken_nonneg (pc : CPc) : 0 ≤ pc.taken := by
  cases pc <;> decide

theorem consumer_holdsItem_pos (pc : CPc) (h : pc.holdsItem = true) :
    1 ≤ (pc.tailAhead : Int) + pc.taken := by
  cases pc <;> simp [CPc.holdsItem] at h <;> decide

theorem invA_producerStep (sh sh1 : Shared) (p p1 : Producer) (c : Consumer)
    (h : producerStep sh p .ok = some (sh1, p1)) (hi : InvA sh p c) : InvA sh1 p1 c := by
  obtain ⟨hprod, hcons, he, hf, heq, hfq, hhead, htail, hlen, hslots⟩ := hi
  obtain ⟨e1, e2, e3, e4, e5, e6, e7, e8, e9, e10⟩ := producerStep_effect _ _ _ _ h hprod
  have hent := producerStep_entries _ _ _ _ h hprod hhead
  have ha := producer_advanced_nonneg p.pc
  have ht := consumer_taken_nonneg c.pc
  have h0 : 0 ≤ sh.eof_signals_received := hcons.1
  have heof : sh1.eof_signals_received = sh.eof_signals_received := by
    rcases e9 with h1 | ⟨h1, h2, h3⟩
    · exact h1
    · rw [h1]
      simp only [consumed] at hfq
      omega
  have hcon : consumed sh1 c = consumed sh c := by simp [consumed, heof]
  have htl : sh1.tail = sh.tail := by
    rcases e8 with h1 | ⟨h1, h2, h3⟩
    · exact h1
    · rw [h1, htail]
      simp only [MAX_WORD_ENTRIES]
      omega
  refine ⟨producerA_step _ _ _ _ h hprod, consumerA_congr _ _ _ heof hcons, e3 he, e4 hf, ?_, ?_,
    e7 hhead, ?_, ?_, ?_⟩
  · rw [hcon]; omega
  · rw [hcon]; omega
  · rw [hcon, htl]; exact htail
  · rw [e10]; exact hlen
  · intro k hk1 hk2
    rcases hent with ⟨h1, h2, h3⟩ | ⟨h1, h2, h3⟩
    · rw [h3]
      have : (if p.pc = PPc.write ∨ p.pc = PPc.eWrite then 1 else 0) = 0 := by simp [h1, h2]
      rw [this] at e5
      exact hslots k (by omega) (by omega)
    · have : (if p.pc = PPc.write ∨ p.pc = PPc.eWrite then 1 else 0) = 1 := by simp [h1]
      rw [this, h2] at e5
      rw [h3, List.getD_eq_getElem?_getD]
      simp only [MAX_WORD_ENTRIES] at hk2 hlen hslots ⊢
      by_cases hka : k = p.advances
      · subst hka
        have hl : p.advances % 10 < sh.entries.length := by omega
        simp [List.getElem?_set_self, hl]
      · have hne : p.advances % 10 ≠ k % 10 := by omega
        rw [List.getElem?_set_ne hne, ← List.getD_eq_getElem?_getD]
        exact hslots k (by omega) (by omega)

theorem invA_consumerStep (sh sh1 : Shared) (p : Producer) (c c1 : Consumer)
    (h : consumerStep sh c .ok = some (sh1, c1)) (hi : InvA sh p c) : InvA sh1 p c1 := by
  obtain ⟨hprod, hcons, he, hf, heq, hfq, hhead, htail, hlen, hslots⟩ := hi
  have h0 : 0 ≤ sh.eof_signals_received := hcons.1
  obtain ⟨e1, e2, e3, e4, e5, e6, e7⟩ := consumerStep_effect _ _ _ _ h h0
  have ha := producer_advanced_nonneg p.pc
  have hw := producer_written_le p.pc
  have ht := consumer_taken_nonneg c.pc
  have hb := producerA_bound p hprod
  have hread : c.pc = .read → sh.entries.getD sh.tail [] = itemsA.getD (consumed sh c) [] := by
    intro hpc
    simp only [hpc, CPc.permit, CPc.taken, CPc.tailAhead, MAX_WORD_ENTRIES] at heq hfq htail
    rw [htail]
    simp only [Nat.add_zero]
    exact hslots _ (by omega) (by simp only [MAX_WORD_ENTRIES]; omega)
  have hbound : c.pc.holdsItem = true → consumed sh c < 17 := by
    intro hh
    have := consumer_holdsItem_pos c.pc hh
    omega
  refine ⟨hprod, consumerA_step _ _ _ _ h hcons hread hbound, e3 he, e4 hf, ?_, ?_, ?_,
    e5 htail, ?_, ?_⟩
  · omega
  · omega
  · rw [e6]; exact hhead
  · rw [e7]; exact hlen
  · rw [e7]; exact hslots

theorem stateInvA_step (s : State) (l : Label) (s1 : State) (hq : l.quiet = true)
    (hi : StateInvA s) (h : step s l = some s1) : StateInvA s1 := by
  obtain ⟨p, c, hp, hc, hinv⟩ := hi
  rcases step_cases s l s1 h with ⟨i, r, q, sh1, q1, rfl, hq1, hps, rfl⟩ |
    ⟨j, r, d, sh1, d1, rfl, hd, hcs, rfl⟩ | ⟨i, q, rfl, _, rfl⟩ | ⟨j, d, rfl, _, rfl⟩
  · have hr : r = .ok := by simpa [Label.quiet] using hq
    subst hr
    rw [hp] at hq1
    rcases i with _ | i
    · simp only [List.getElem?_cons_zero, Option.some.injEq] at hq1
      subst hq1
      exact ⟨q1, c, by simp [hp], hc, invA_producerStep _ _ _ _ _ hps hinv⟩
    · simp at hq1
  · have hr : r = .ok := by simpa [Label.quiet] using hq
    subst hr
    rw [hc] at hd
    rcases j with _ | j
    · simp only [List.getElem?_cons_zero, Option.some.injEq] at hd
      subst hd
      exact ⟨p, d1, hp, by simp [hc], invA_consumerStep _ _ _ _ _ hcs hinv⟩
    · simp at hd
  · simp [Label.quiet] at hq
  · simp [Label.quiet] at hq

theorem stateInvA_scenarioA : StateInvA scenarioA := by
  refine ⟨newProducer true rawA, newConsumer 1, rfl, rfl, ?_⟩
  refine ⟨?_, ?_, by decide, by decide, by decide, by decide, by decide, by decide, by decide, ?_⟩
  · simp [ProducerA, newProducer]
  · simp [ConsumerA, newConsumer, scenarioA, initState, freshShared, CPc.holdsItem]
    decide
  · intro k hk
    simp [Producer.advances, newProducer, PPc.written] at hk

theorem producerA_live (p : Producer) (hp : ProducerA p) (hl : p.live = 1) : p.advances ≤ 7 := by
  obtain ⟨hrun, hopen, hwp, hloc⟩ := hp
  cases hpc : p.pc <;> simp only [hpc] at hloc <;> try exact hloc.elim
  all_goals (cases hfl : p.flooding <;>
    simp_all [Producer.advances, Producer.live, MAX_WORD_ENTRIES] <;> omega)

theorem invB_producerStep (sh sh1 : Shared) (p p1 : Producer) (c : Consumer)
    (h : producerStep sh p .ok = some (sh1, p1)) (hp : ProducerA p)
    (heof : sh1.eof_signals_received = sh.eof_signals_received)
    (hi : InvB sh p c) : InvB sh1 p1 c := by
  obtain ⟨hm, hact, hinit, hcheck, hret, hwait⟩ := hi
  obtain ⟨hrun, hopen, hwp, hloc⟩ := hp
  cases hpc : p.pc <;> simp only [hpc] at hloc <;> try exact hloc.elim
  case loopTop =>
    simp only [producerStep, hpc, hrun, if_true] at h
    split at h
    · simp only [Option.some.injEq, Prod.mk.injEq] at h
      obtain ⟨rfl, rfl⟩ := h
      constructor <;> simp_all [PPc.mutex, Producer.live]
    · split at h <;> simp only [Option.some.injEq, Prod.mk.injEq] at h <;>
        obtain ⟨rfl, rfl⟩ := h <;> constructor <;> simp_all [PPc.mutex, Producer.live]
  all_goals simp only [producerStep, hpc, sendEofReturn, hrun, hopen] at h
  all_goals (try split at h)
  all_goals simp only [Option.some.injEq, Prod.mk.injEq, reduceCtorEq] at h
  all_goals (try (obtain ⟨rfl, rfl⟩ := h))
  all_goals (constructor <;> simp_all [PPc.mutex, Producer.live])
  all_goals (try omega)

theorem producer_live_cases (p : Producer) : p.live = 0 ∨ p.live = 1 := by
  cases hpc : p.pc <;> cases hfl : p.flooding <;> simp [Producer.live, hpc, hfl]

theorem invB_consumerStep (sh sh1 : Shared) (p : Producer) (c c1 : Consumer)
    (h : consumerStep sh c .ok = some (sh1, c1)) (ha : InvA sh p c) (hi : InvB sh p c) :
    InvB sh1 p c1 := by
  obtain ⟨hm, hact, hinit, hcheck, hret, hwait⟩ := hi
  have hlive : sh.active_producers_count ≠ 0 → sh.eof_signals_received ≤ 1 := by
    intro hne
    have h1 : p.live = 1 := by
      rcases producer_live_cases p with h0 | h1
      · rw [hact, h0] at hne; exact absurd rfl hne
      · exact h1
    have h7 := producerA_live p ha.prod h1
    have hfq := ha.full_eq
    have hf := ha.full_nonneg
    have h6 := ha.cons.2.2.1
    have hw := ha.cons.2.1
    have ht := consumer_taken_nonneg c.pc
    have hadv := producer_advanced_nonneg p.pc
    simp only [consumed] at hfq
    omega
  have hexp : c.total_expected_producers = 1 := ha.cons.2.2.2.2.1
  cases hpc : c.pc <;> simp only [consumerStep, hpc, hexp] at h <;>
    (try split at h) <;> (try split at h) <;>
    simp only [Option.some.injEq, Prod.mk.injEq, reduceCtorEq] at h <;>
    (try (obtain ⟨rfl, rfl⟩ := h)) <;>
    constructor <;> simp_all [CPc.mutex] <;> omega

theorem producerRank_step (sh sh1 : Shared) (p p1 : Producer)
    (h : producerStep sh p .ok = some (sh1, p1)) (hp : ProducerA p) :
    producerRank p1 < producerRank p := by
  obtain ⟨hrun, hopen, hwp, hloc⟩ := hp
  cases hpc : p.pc <;> simp only [hpc] at hloc <;> try exact hloc.elim
  case loopTop =>
    simp only [producerStep, hpc, hrun, if_true] at h
    obtain ⟨hin, hfl⟩ := hloc
    rcases Nat.lt_or_ge p.words_produced 6 with hlt | hge
    · obtain ⟨d1, d2, d3⟩ := rawA_drop _ hlt
      rw [hin, d1] at h
      simp only [d2, Bool.false_eq_true, if_false, Option.some.injEq, Prod.mk.injEq] at h
      obtain ⟨rfl, rfl⟩ := h
      simp only [producerRank, hpc]
      omega
    · have h6 : p.words_produced = 6 := by omega
      have hnil : List.drop 6 rawA = [] := by decide
      rw [hin, h6, hnil] at h
      simp only [Option.some.injEq, Prod.mk.injEq] at h
      obtain ⟨rfl, rfl⟩ := h
      simp only [producerRank, hpc]
      omega
  all_goals simp only [producerStep, hpc, sendEofReturn, hrun, hopen] at h
  all_goals (try split at h)
  all_goals simp only [Option.some.injEq, Prod.mk.injEq, reduceCtorEq] at h
  all_goals (try (obtain ⟨rfl, rfl⟩ := h))
  all_goals (cases hfl : p.flooding <;>
    simp_all [producerRank, MAX_WORD_ENTRIES] <;> omega)

theorem consumerRank_step (sh sh1 : Shared) (c c1 : Consumer)
    (h : consumerStep sh c .ok = some (sh1, c1)) (h0 : 0 ≤ sh.eof_signals_received)
    (hbound : c.pc.holdsItem = true → consumed sh c < 17)
    (hinit : c.pc = .waitInit → c.running = true → sh.initialized = true) :
    (17 - consumed sh1 c1) * 20 + c1.pc.rank < (17 - consumed sh c) * 20 + c.pc.rank := by
  cases hpc : c.pc <;> simp only [consumerStep, hpc] at h <;>
    (try split at h) <;> (try split at h) <;>
    simp only [Option.some.injEq, Prod.mk.injEq, reduceCtorEq] at h <;>
    (try (obtain ⟨rfl, rfl⟩ := h)) <;>
    simp_all [consumed, CPc.rank, CPc.holdsItem] <;> omega

theorem producer_blocked (sh : Shared) (p : Producer) (hp : ProducerA p)
    (h : producerStep sh p .ok = none) :
    ((p.pc = .waitEmpty ∨ p.pc = .eWaitEmpty) ∧ sh.sem_empty ≤ 0) ∨
      ((p.pc = .waitMutex ∨ p.pc = .eWaitMutex) ∧ sh.sem_mutex ≤ 0) ∨ p.pc = .done := by
  obtain ⟨hrun, hopen, hwp, hloc⟩ := hp
  cases hpc : p.pc <;> simp only [hpc] at hloc <;> try exact hloc.elim
  all_goals simp only [producerStep, hpc, sendEofReturn, hrun, hopen] at h
  all_goals (try split at h)
  all_goals (try split at h)
  all_goals (try split at h)
  all_goals simp_all

theorem consumer_blocked (sh : Shared) (c : Consumer) (hnf : c.pc ≠ .failed)
    (h : consumerStep sh c .ok = none) :
    (c.pc = .waitFull ∧ sh.sem_full ≤ 0) ∨ (c.pc = .waitMutex ∧ sh.sem_mutex ≤ 0) ∨
      c.pc = .done := by
  cases hpc : c.pc <;> simp only [consumerStep, hpc] at h <;>
    (try split at h) <;> (try split at h) <;> simp_all

theorem invA_producer_eof (sh sh1 : Shared) (p p1 : Producer) (c : Consumer)
    (h : producerStep sh p .ok = some (sh1, p1)) (hi : InvA sh p c) :
    sh1.eof_signals_received = sh.eof_signals_received := by
  obtain ⟨hprod, hcons, he, hf, heq, hfq, hhead, htail, hlen, hslots⟩ := hi
  obtain ⟨e1, e2, e3, e4, e5, e6, e7, e8, e9, e10⟩ := producerStep_effect _ _ _ _ h hprod
  have ha := producer_advanced_nonneg p.pc
  have ht := consumer_taken_nonneg c.pc
  have h0 : 0 ≤ sh.eof_signals_received := hcons.1
  rcases e9 with h1 | ⟨h1, h2, h3⟩
  · exact h1
  · rw [h1]
    simp only [consumed] at hfq
    omega

theorem stateInvAB_step (s : State) (l : Label) (s1 : State) (hq : l.quiet = true)
    (hi : StateInvAB s) (h : step s l = some s1) : StateInvAB s1 := by
  obtain ⟨p, c, hp, hc, hinv, hinvb⟩ := hi
  rcases step_cases s l s1 h with ⟨i, r, q, sh1, q1, rfl, hq1, hps, rfl⟩ |
    ⟨j, r, d, sh1, d1, rfl, hd, hcs, rfl⟩ | ⟨i, q, rfl, _, rfl⟩ | ⟨j, d, rfl, _, rfl⟩
  · have hr : r = .ok := by simpa [Label.quiet] using hq
    subst hr
    rw [hp] at hq1
    rcases i with _ | i
    · simp only [List.getElem?_cons_zero, Option.some.injEq] at hq1
      subst hq1
      exact ⟨q1, c, by simp [hp], hc, invA_producerStep _ _ _ _ _ hps hinv,
        invB_producerStep _ _ _ _ _ hps hinv.prod (invA_producer_eof _ _ _ _ _ hps hinv) hinvb⟩
    · simp at hq1
  · have hr : r = .ok := by simpa [Label.quiet] using hq
    subst hr
    rw [hc] at hd
    rcases j with _ | j
    · simp only [List.getElem?_cons_zero, Option.some.injEq] at hd
      subst hd
      exact ⟨p, d1, hp, by simp [hc], invA_consumerStep _ _ _ _ _ hcs hinv,
        invB_consumerStep _ _ _ _ _ hcs hinv hinvb⟩
    · simp at hd
  · simp [Label.quiet] at hq
  · simp [Label.quiet] at hq

theorem stateInvAB_scenarioA : StateInvAB scenarioA := by
  obtain ⟨p, c, hp, hc, hi⟩ := stateInvA_scenarioA
  refine ⟨p, c, hp, hc, hi, ?_⟩
  have hp' : p = newProducer true rawA := by
    have : scenarioA.producers = [newProducer true rawA] := rfl
    rw [this] at hp
    simpa using hp.symm
  have hc' : c = newConsumer 1 := by
    have : scenarioA.consumers = [newConsumer 1] := rfl
    rw [this] at hc
    simpa using hc.symm
  subst hp' hc'
  constructor <;> simp [scenarioA, initState, freshShared, newProducer, newConsumer,
    PPc.mutex, CPc.mutex, Producer.live]

theorem scenarioA_progress (s : State) (hi : StateInvAB s)
    (hnd : ∀ c, s.consumers[0]? = some c → c.pc ≠ .done) :
    ∃ l s1, l.quiet = true ∧ step s l = some s1 ∧ measureA s1 < measureA s := by
  obtain ⟨p, c, hp, hc, ha, hb⟩ := hi
  have hcnd : c.pc ≠ .done := hnd c (by simp [hc])
  cases hps : producerStep s.sh p .ok with
  | some res =>
    obtain ⟨sh1, p1⟩ := res
    refine ⟨.prod 0 .ok, { s with sh := sh1, producers := s.producers.set 0 p1 }, rfl, ?_, ?_⟩
    · simp [step, hp, hps]
    · have hr := producerRank_step _ _ _ _ hps ha.prod
      have heof := invA_producer_eof _ _ _ _ _ hps ha
      simp only [measureA, hp, hc, List.set_cons_zero, List.map_cons, List.map_nil,
        List.sum_cons, List.sum_nil, consumed, heof]
      omega
  | none =>
    have hblk := producer_blocked _ _ ha.prod hps
    have hfq := ha.full_eq
    have heq := ha.empty_eq
    have hm := hb.mutex_eq
    have hf := ha.full_nonneg
    have he := ha.empty_nonneg
    have h0 : 0 ≤ s.sh.eof_signals_received := ha.cons.1
    have hw := ha.cons.2.1
    have h6 := ha.cons.2.2.1
    have hnf : c.pc ≠ .failed := ha.cons.2.2.2.2.2.2.2.2.2.2
    have hbound : c.pc.holdsItem = true → consumed s.sh c < 17 := by
      intro hh
      have := consumer_holdsItem_pos c.pc hh
      have := producerA_bound p ha.prod
      have := producer_advanced_nonneg p.pc
      have := consumer_taken_nonneg c.pc
      omega
    have hpcas : p.pc ≠ .cas := by
      rcases hblk with ⟨h1 | h1, _⟩ | ⟨h1 | h1, _⟩ | h1 <;> rw [h1] <;> simp
    cases hcs : consumerStep s.sh c .ok with
    | some res =>
      obtain ⟨sh1, c1⟩ := res
      refine ⟨.cons 0 .ok, { s with sh := sh1, consumers := s.consumers.set 0 c1 }, rfl, ?_, ?_⟩
      · simp [step, hc, hcs]
      · have hr := consumerRank_step _ _ _ _ hcs h0 hbound (fun _ _ => hb.init hpcas)
        simp only [measureA, hp, hc, List.set_cons_zero, List.map_cons, List.map_nil,
          List.sum_cons, List.sum_nil]
        omega
    | none =>
      exfalso
      rcases consumer_blocked _ _ hnf hcs with ⟨hcw, hfz⟩ | ⟨hcw, hmz⟩ | hcd
      · rcases hblk with ⟨h1 | h1, hez⟩ | ⟨h1 | h1, hmz⟩ | h1
        · simp only [h1, hcw, PPc.permit, PPc.advanced, CPc.permit, CPc.taken, CPc.tailAhead,
            MAX_WORD_ENTRIES] at hfq heq
          omega
        · simp only [h1, hcw, PPc.permit, PPc.advanced, CPc.permit, CPc.taken, CPc.tailAhead,
            MAX_WORD_ENTRIES] at hfq heq
          omega
        · simp only [h1, hcw, PPc.mutex, CPc.mutex] at hm
          omega
        · simp only [h1, hcw, PPc.mutex, CPc.mutex] at hm
          omega
        · have hwait := hb.waiting hcw
          have hfl := hb.ret h1
          obtain ⟨_, _, _, hloc⟩ := ha.prod
          simp only [h1] at hloc
          have hi10 := hloc.2 hfl
          simp only [h1, hcw, PPc.advanced, CPc.taken, CPc.tailAhead, Producer.advances, hfl,
            if_true, consumed, hloc.1, hi10, MAX_WORD_ENTRIES] at hfq
          omega
      · rcases hblk with ⟨h1 | h1, hez⟩ | ⟨h1 | h1, hmz2⟩ | h1 <;>
          simp only [h1, hcw, PPc.mutex, CPc.mutex] at hm <;> omega
      · exact hcnd hcd

theorem scenarioA_can_finish (n : Nat) (s : State) (hi : StateInvAB s) (hn : measureA s ≤ n) :
    ∃ tr s2 c2, (∀ l ∈ tr, l.quiet = true) ∧ exec s tr = some s2 ∧
      s2.consumers[0]? = some c2 ∧ c2.pc = .done := by
  induction n generalizing s with
  | zero =>
    by_cases hd : ∀ c, s.consumers[0]? = some c → c.pc ≠ .done
    · obtain ⟨l, s1, _, _, hlt⟩ := scenarioA_progress s hi hd
      omega
    · push_neg at hd
      obtain ⟨c, hc, hdone⟩ := hd
      exact ⟨[], s, c, by simp, rfl, hc, hdone⟩
  | succ n ih =>
    by_cases hd : ∀ c, s.consumers[0]? = some c → c.pc ≠ .done
    · obtain ⟨l, s1, hq, hs, hlt⟩ := scenarioA_progress s hi hd
      obtain ⟨tr, s2, c2, h1, h2, h3, h4⟩ :=
        ih s1 (stateInvAB_step s l s1 hq hi hs) (by omega)
      refine ⟨l :: tr, s2, c2, ?_, ?_, h3, h4⟩
      · intro x hx
        rcases List.mem_cons.mp hx with rfl | hx
        · exact hq
        · exact h1 x hx
      · simp only [exec, hs]
        exact h2
    · push_neg at hd
      obtain ⟨c, hc, hdone⟩ := hd
      exact ⟨[], s, c, by simp, rfl, hc, hdone⟩

/-- C9: in scenario A (one producer reading The, cat, sat, on, the, mat; one
consumer expecting one producer; fresh segment), after any interleaving of the
two processes' statements (no SIGINT, every wait returning 0): if the consumer
has returned, its table is exactly the: 2, cat: 1, sat: 1, on: 1, mat: 1, with
six words processed; and if it has not, the run can be continued to a state in
which it has returned. -/
theorem scenarioA_table (tr : List Label) (s : State)
    (hq : ∀ l ∈ tr, l.quiet = true) (h : exec scenarioA tr = some s) :
    (∀ c, s.consumers[0]? = some c → c.pc = .done →
        c.wordCounts = expectedTableA ∧ c.words_processed = 6) ∧
      ∃ tr2 s2 c2, (∀ l ∈ tr2, l.quiet = true) ∧ exec s tr2 = some s2 ∧
        s2.consumers[0]? = some c2 ∧ c2.pc = .done := by
  have hinv : StateInvAB s :=
    exec_invariant_on Label.quiet StateInvAB stateInvAB_step _ tr s hq stateInvAB_scenarioA h
  refine ⟨?_, scenarioA_can_finish _ s hinv (Nat.le_refl _)⟩
  intro c hc hdone
  obtain ⟨p, c2, -, hc2, hi, -⟩ := hinv
  rw [hc2] at hc
  simp only [List.getElem?_cons_zero, Option.some.injEq] at hc
  subst hc
  obtain ⟨-, -, h6, htab, -, -, -, -, hrun, -, -⟩ := hi.cons
  have hw : c2.words_processed = 6 := h6 (hrun (Or.inr (Or.inr (Or.inr hdone))))
  exact ⟨by rw [htab, hw]; exact tableA_six, hw⟩

/-- C9 at a complete run: the consumer returns with the expected table. -/
theorem scenarioA_table_witness :
    exec scenarioA runA = some scenarioAEnd ∧
      ((∀ c, scenarioAEnd.consumers[0]? = some c → c.pc = .done →
          c.wordCounts = expectedTableA ∧ c.words_processed = 6) ∧
        ∃ tr2 s2 c2, (∀ l ∈ tr2, l.quiet = true) ∧ exec scenarioAEnd tr2 = some s2 ∧
          s2.consumers[0]? = some c2 ∧ c2.pc = .done) :=
  ⟨by decide, scenarioA_table runA scenarioAEnd (by decide) (by decide)⟩

/-! ## The consumer's file and the aggregator's parser -/

theorem foldl_decimalCore (fuel : Nat) : ∀ (n : Nat) (acc : List Nat), n < fuel →
    (decimalCore fuel n acc).foldl (fun v d => 10 * v + (d - 48)) 0
      = acc.foldl (fun v d => 10 * v + (d - 48)) n := by
  induction fuel with
  | zero => intro n acc h; omega
  | succ fuel ih =>
    intro n acc h
    unfold decimalCore
    split
    · rename_i h0
      simp only [List.foldl_cons]
      congr 1
      omega
    · rename_i h0
      rw [ih (n / 10) _ (by omega)]
      simp only [List.foldl_cons]
      congr 1
      omega

theorem digitsValue_decimal (n : Nat) : digitsValue (decimal n) = n := by
  unfold digitsValue decimal
  rw [foldl_decimalCore (n + 1) n [] (by omega)]
  rfl

theorem decimalCore_digits (fuel : Nat) : ∀ (n : Nat) (acc : List Nat),
    (∀ d ∈ acc, isdigit d = true) → ∀ d ∈ decimalCore fuel n acc, isdigit d = true := by
  induction fuel with
  | zero => intro n acc h; simpa [decimalCore] using h
  | succ fuel ih =>
    intro n acc h
    have hd : isdigit (48 + n % 10) = true := by
      simp only [isdigit, Bool.and_eq_true, decide_eq_true_eq]; omega
    unfold decimalCore
    split
    · intro d hmem
      rcases List.mem_cons.1 hmem with rfl | hmem
      · exact hd
      · exact h d hmem
    · apply ih
      intro d hmem
      rcases List.mem_cons.1 hmem with rfl | hmem
      · exact hd
      · exact h d hmem

theorem decimalCore_ne_nil (fuel : Nat) : ∀ (n : Nat) (acc : List Nat),
    (0 < fuel ∨ acc ≠ []) → decimalCore fuel n acc ≠ [] := by
  induction fuel with
  | zero => intro n acc h; rcases h with h | h; · omega
            simpa [decimalCore] using h
  | succ fuel ih =>
    intro n acc _
    unfold decimalCore
    split
    · simp
    · exact ih _ _ (Or.inr (by simp))

theorem decimal_digits (n : Nat) : ∀ d ∈ decimal n, isdigit d = true :=
  decimalCore_digits (n + 1) n [] (by simp)

theorem decimal_ne_nil (n : Nat) : decimal n ≠ [] :=
  decimalCore_ne_nil (n + 1) n [] (Or.inl (by omega))

theorem isdigit_not_space {d : Nat} (h : isdigit d = true) :
    isspace d = false ∧ d ≠ 45 ∧ d ≠ 43 ∧ d ≠ 9 ∧ d ≠ 10 := by
  simp only [isdigit, Bool.and_eq_true, decide_eq_true_eq] at h
  refine ⟨?_, by omega, by omega, by omega, by omega⟩
  simp only [isspace, Bool.or_eq_false_iff, beq_eq_false_iff_ne, ne_eq, Bool.and_eq_false_iff,
    decide_eq_false_iff_not]
  omega

/-- On a non-empty string of digits `std::stoi` returns their value, or throws
`out_of_range` when the value is not an `int`. -/
theorem stoi_digits (ds : List Nat) (hne : ds ≠ []) (hd : ∀ d ∈ ds, isdigit d = true) :
    stoi ds = if (digitsValue ds : Int) ≤ INT_MAX then .value (digitsValue ds)
      else .out_of_range := by
  obtain ⟨d, rest, rfl⟩ := List.exists_cons_of_ne_nil hne
  have h0 := hd d (by simp)
  obtain ⟨hs, h45, h43, -, -⟩ := isdigit_not_space h0
  have htake : List.takeWhile isdigit (d :: rest) = d :: rest :=
    List.takeWhile_eq_self_iff.2 hd
  have hmin : INT_MIN ≤ (digitsValue (d :: rest) : Int) := by
    have : (0 : Int) ≤ (digitsValue (d :: rest) : Int) := Int.ofNat_nonneg _
    simp only [INT_MIN]; omega
  have h45b : (d == 45) = false := beq_eq_false_iff_ne.2 h45
  have h43b : (d == 43) = false := beq_eq_false_iff_ne.2 h43
  simp only [stoi, List.dropWhile_cons, hs, List.head?_cons, Option.some_beq_some,
    h45b, h43b, Bool.or_self, Bool.false_eq_true, if_false, htake,
    List.isEmpty_cons, hmin, true_and]

theorem getlinesFrom_line (l : Word) (h : 10 ∉ l) : ∀ (rest : List Nat) (cur : Word),
    getlinesFrom (l ++ 10 :: rest) cur = (cur.reverse ++ l) :: getlinesFrom rest [] := by
  induction l with
  | nil => intro rest cur; simp [getlinesFrom]
  | cons c l ih =>
    intro rest cur
    have hc : c ≠ 10 := fun hc => h (by simp [hc])
    have hl : 10 ∉ l := fun hl => h (by simp [hl])
    show getlinesFrom (c :: (l ++ 10 :: rest)) cur = _
    simp only [getlinesFrom, hc, if_false]
    rw [ih hl]
    simp

/-- The lines read back from a file made of lines that hold no newline, each
closed by a newline. -/
theorem getlines_flatMap {α : Type} (f : α → Word) (t : List α) (h : ∀ e ∈ t, 10 ∉ f e) :
    getlines (t.flatMap (fun e => f e ++ [10])) = t.map f := by
  unfold getlines
  induction t with
  | nil => simp [getlinesFrom]
  | cons e t ih =>
    simp only [List.flatMap_cons, List.append_assoc, List.singleton_append, List.map_cons]
    rw [getlinesFrom_line (f e) (h e (by simp))]
    rw [ih (fun e he => h e (by simp [he]))]
    simp

theorem takeWhile_before_tab (token rest : Word) (h : 9 ∉ token) :
    (token ++ 9 :: rest).takeWhile (fun c => c != 9) = token ∧
    (token ++ 9 :: rest).dropWhile (fun c => c != 9) = 9 :: rest := by
  induction token with
  | nil => simp
  | cons c token ih =>
    have hc : c ≠ 9 := fun hc => h (by simp [hc])
    have ht : 9 ∉ token := fun ht => h (by simp [ht])
    simp [hc, ih ht]

/-- The parser on a line made of a token without a tab, a tab, and a non-empty
string of digits. -/
theorem parseLine_wellFormed (token digits : Word) (h : 9 ∉ token) (hne : digits ≠ [])
    (hd : ∀ d ∈ digits, isdigit d = true) (hmax : (digitsValue digits : Int) ≤ INT_MAX) :
    parseLine (token ++ 9 :: digits) = .record token (digitsValue digits) := by
  obtain ⟨h1, h2⟩ := takeWhile_before_tab token digits h
  simp only [parseLine, List.mem_append, List.mem_cons, true_or, or_true, if_true, h1, h2,
    List.drop_succ_cons, List.drop_zero, stoi_digits digits hne hd, hmax]

/-- The consumer's file read back by the aggregator's loop: line by line the
pairs of the table, when the words hold no tab and no newline and the counts
are of type `int`. -/
theorem parse_writeTable (wordCounts : List (Word × Nat))
    (htoken : ∀ e ∈ wordCounts, 9 ∉ e.1 ∧ 10 ∉ e.1)
    (hcount : ∀ e ∈ wordCounts, (e.2 : Int) ≤ INT_MAX) :
    (getlines (writeTable wordCounts)).map parseLine
      = wordCounts.map (fun e => Line.record e.1 (e.2 : Int)) := by
  have hw : writeTable wordCounts
      = wordCounts.flatMap (fun e => (e.1 ++ 9 :: decimal e.2) ++ [10]) := by
    unfold writeTable
    congr 1
    funext e
    simp
  rw [hw, getlines_flatMap (fun e : Word × Nat => e.1 ++ 9 :: decimal e.2)]
  · rw [List.map_map]
    apply List.map_congr_left
    intro e he
    have h := parseLine_wellFormed e.1 (decimal e.2) (htoken e he).1 (decimal_ne_nil e.2)
      (decimal_digits e.2) (by rw [digitsValue_decimal]; exact hcount e he)
    rw [digitsValue_decimal] at h
    exact h
  · intro e he hmem
    rcases List.mem_append.1 hmem with h | h
    · exact (htoken e he).2 h
    · rcases List.mem_cons.1 h with h | h
      · omega
      · exact (isdigit_not_space (decimal_digits e.2 10 h)).2.2.2.2 rfl

theorem lowerOrDigit_not_control {c : Nat} (h : isLowerOrDigit c = true) : c ≠ 9 ∧ c ≠ 10 := by
  simp only [isLowerOrDigit, Bool.or_eq_true, Bool.and_eq_true, decide_eq_true_eq] at h
  omega

/-! ## The aggregator's accumulators -/

theorem wrapInt_add (a c : Int) : wrapInt (wrapInt a + c) = wrapInt (a + c) := by
  simp only [wrapInt]; omega

theorem wrapInt_of_range {x : Int} (h0 : 0 ≤ x) (h1 : x ≤ INT_MAX) : wrapInt x = x := by
  simp only [wrapInt, INT_MAX] at *; omega

theorem keys_addCount (m : List (Word × Int)) (w : Word) (c : Int) :
    (addCount m w c).map Prod.fst
      = if w ∈ m.map Prod.fst then m.map Prod.fst else m.map Prod.fst ++ [w] := by
  induction m with
  | nil => simp [addCount]
  | cons e m ih =>
    obtain ⟨k, n⟩ := e
    by_cases hk : k = w
    · simp [addCount, hk]
    · have hk2 : ¬ w = k := fun h => hk h.symm
      simp only [addCount, hk, if_false, List.map_cons, ih, List.mem_cons, hk2, false_or]
      split <;> simp

theorem valueOf_addCount (m : List (Word × Int)) (w : Word) (c : Int) (k : Word) :
    valueOf (addCount m w c) k
      = if k = w then wrapInt (valueOf m w + c) else valueOf m k := by
  induction m with
  | nil =>
    by_cases hk : k = w
    · simp [addCount, valueOf, hk]
    · have hk2 : ¬ w = k := fun h => hk h.symm
      simp [addCount, valueOf, hk, hk2]
  | cons e m ih =>
    obtain ⟨k1, n⟩ := e
    by_cases h1 : k1 = w
    · subst h1
      by_cases hk : k = k1
      · simp [addCount, valueOf, hk]
      · have hk2 : ¬ k1 = k := fun h => hk h.symm
        simp [addCount, valueOf, hk, hk2]
    · by_cases hk : k1 = k
      · subst hk
        simp [addCount, valueOf, h1]
      · simp [addCount, valueOf, h1, hk, ih]

theorem mem_iff_valueOf (m : List (Word × Int)) (h : (m.map Prod.fst).Nodup) (w : Word)
    (c : Int) : (w, c) ∈ m ↔ w ∈ m.map Prod.fst ∧ c = valueOf m w := by
  induction m with
  | nil => simp
  | cons e m ih =>
    obtain ⟨k, n⟩ := e
    simp only [List.map_cons, List.nodup_cons] at h
    have ih := ih h.2
    by_cases hk : k = w
    · subst hk
      have hnot : (k, c) ∉ m := fun hm => h.1 (List.mem_map_of_mem Prod.fst hm)
      simp only [List.mem_cons, Prod.mk.injEq, true_and, hnot, or_false, List.map_cons,
        true_or, valueOf, if_true]
    · have hk2 : ¬ w = k := fun h => hk h.symm
      simp only [List.mem_cons, Prod.mk.injEq, hk2, false_and, false_or, ih, List.map_cons,
        valueOf, hk, if_false]

theorem sumFor_append (rs : List (Word × Int)) (r : Word × Int) (w : Word) :
    sumFor (rs ++ [r]) w = sumFor rs w + (if r.1 = w then r.2 else 0) := by
  unfold sumFor
  by_cases h : r.1 = w <;> simp [List.filter_append, List.filter_cons, h]

theorem sumAll_append (rs : List (Word × Int)) (r : Word × Int) :
    sumAll (rs ++ [r]) = sumAll rs + r.2 := by
  simp [sumAll]

theorem tallyOf_nil :
    TallyOf { all_word_counts := [], total_words_processed_across_consumers := 0 } [] where
  nodup := by simp
  keys := by simp
  value := by intro w; simp [valueOf, sumFor, wrapInt]
  total := by simp [sumAll, wrapInt]

theorem tallyOf_addRecord {t : Totals} {rs : List (Word × Int)} (h : TallyOf t rs)
    (r : Word × Int) : TallyOf (addRecord t r) (rs ++ [r]) where
  nodup := by
    simp only [addRecord, keys_addCount]
    split
    · exact h.nodup
    · rename_i hnot
      exact List.Nodup.append h.nodup (by simp) (by simpa using hnot)
  keys := by
    intro w
    simp only [addRecord, keys_addCount, List.map_append, List.map_cons, List.map_nil,
      List.mem_append, List.mem_singleton, ← h.keys]
    split
    · rename_i hmem
      constructor
      · exact Or.inl
      · rintro (h1 | rfl)
        · exact h1
        · exact hmem
    · simp
  value := by
    intro w
    simp only [addRecord, valueOf_addCount, sumFor_append, h.value]
    by_cases hw : w = r.1
    · subst hw; simp [wrapInt_add]
    · have hw2 : ¬ r.1 = w := fun h => hw h.symm
      simp [hw, hw2]
  total := by
    simp only [addRecord, sumAll_append, h.total, wrapInt_add]

theorem tallyOf_foldl (rest : List (Word × Int)) : ∀ (t : Totals) (rs : List (Word × Int)),
    TallyOf t rs → TallyOf (rest.foldl addRecord t) (rs ++ rest) := by
  induction rest with
  | nil => intro t rs h; simpa using h
  | cons r rest ih =>
    intro t rs h
    have := ih (addRecord t r) (rs ++ [r]) (tallyOf_addRecord h r)
    simpa using this

theorem foldl_readLine (lines : List Word) : ∀ t : Totals,
    lines.foldl readLine t = (lines.filterMap recordOf).foldl addRecord t := by
  induction lines with
  | nil => intro t; rfl
  | cons l lines ih =>
    intro t
    simp only [List.foldl_cons, ih, List.filterMap_cons]
    unfold readLine recordOf
    cases parseLine l <;> simp

theorem foldl_entries (dir : List DirEntry) : ∀ t : Totals,
    dir.foldl (fun t e => (linesOf e).foldl readLine t) t
      = (dir.flatMap linesOf).foldl readLine t := by
  induction dir with
  | nil => intro t; rfl
  | cons e dir ih => intro t; simp [List.flatMap_cons, List.foldl_append, ih]

/-- The accumulators after the directory is read hold the tally of the records
read. -/
theorem readDirectory_tally (dir : List DirEntry) :
    TallyOf (readDirectory dir) (recordsRead dir) := by
  unfold readDirectory recordsRead linesRead
  rw [foldl_entries, foldl_readLine]
  simpa using tallyOf_foldl ((dir.flatMap linesOf).filterMap recordOf) _ [] tallyOf_nil

/-! ## The aggregator's report -/

theorem insertionSort_conforming (l : List (Word × Int)) :
    (l.insertionSort (fun a b => b.2 ≤ a.2)).Perm l ∧
    (l.insertionSort (fun a b => b.2 ≤ a.2)).Pairwise (fun a b => cmp b a = false) := by
  refine ⟨List.perm_insertionSort _ l, ?_⟩
  have htotal : IsTotal (Word × Int) (fun a b => b.2 ≤ a.2) := ⟨fun a b => le_total b.2 a.2⟩
  have htrans : IsTrans (Word × Int) (fun a b => b.2 ≤ a.2) :=
    ⟨fun a b c hab hbc => le_trans hbc hab⟩
  have h := List.sorted_insertionSort (fun a b : Word × Int => b.2 ≤ a.2) l
  refine List.Pairwise.imp ?_ h
  intro a b hab
  simp only [cmp, decide_eq_false_iff_not, not_lt]
  exact hab

theorem insertionOrderLibrary_conforming : insertionOrderLibrary.Conforming where
  iterate_perm := fun m => List.Perm.refl m
  sort_perm := fun l => (insertionSort_conforming l).1
  sort_sorted := fun l => (insertionSort_conforming l).2

theorem reverseOrderLibrary_conforming : reverseOrderLibrary.Conforming where
  iterate_perm := fun m => List.reverse_perm m
  sort_perm := fun l => (insertionSort_conforming l).1
  sort_sorted := fun l => (insertionSort_conforming l).2

theorem sorted_perm {L : Library} (hL : L.Conforming) (m : List (Word × Int)) :
    (L.sort (L.iterate m)).Perm m :=
  (hL.sort_perm _).trans (hL.iterate_perm m)

/-- No record read: nothing is written. -/
theorem aggregate_none (L : Library) (dir : List DirEntry) (h : recordsRead dir = []) :
    aggregate L dir = none := by
  have ht := readDirectory_tally dir
  have hkeys : (readDirectory dir).all_word_counts = [] := by
    cases hm : (readDirectory dir).all_word_counts with
    | nil => rfl
    | cons e m =>
      have := (ht.keys e.1).1 (by simp [hm])
      simp [h] at this
  simp [aggregate, hkeys]

/-- A record read: a report is written; it lists the entries of the map, in
an order `cmp` accepts, under the map's size and the accumulated total. -/
theorem aggregate_some {L : Library} (hL : L.Conforming) (dir : List DirEntry)
    (h : recordsRead dir ≠ []) :
    ∃ r, aggregate L dir = some r ∧
      r.sorted_words.Perm (readDirectory dir).all_word_counts ∧
      r.sorted_words.Pairwise (fun a b => b.2 ≤ a.2) ∧
      r.total = (readDirectory dir).total_words_processed_across_consumers ∧
      r.unique_words = r.sorted_words.length := by
  have ht := readDirectory_tally dir
  have hkeys : (readDirectory dir).all_word_counts ≠ [] := by
    obtain ⟨r, rs, hrs⟩ := List.exists_cons_of_ne_nil h
    have := (ht.keys r.1).2 (by simp [hrs])
    intro hnil
    simp [hnil] at this
  refine ⟨Report.mk (L.sort (L.iterate (readDirectory dir).all_word_counts)).length
    (readDirectory dir).total_words_processed_across_consumers
    (L.sort (L.iterate (readDirectory dir).all_word_counts)),
    ?_, sorted_perm hL _, ?_, rfl, rfl⟩
  · simp [aggregate, hkeys]
  · refine List.Pairwise.imp ?_ (hL.sort_sorted _)
    intro a b hab
    simpa [cmp] using hab

/-- The entries of the map after the directory is read: one for each word of
the records read, with the `int` sum of its counts. -/
theorem mem_readDirectory (dir : List DirEntry) (w : Word) (c : Int) :
    (w, c) ∈ (readDirectory dir).all_word_counts
      ↔ w ∈ (recordsRead dir).map Prod.fst ∧ c = wrapInt (sumFor (recordsRead dir) w) := by
  have ht := readDirectory_tally dir
  rw [mem_iff_valueOf _ ht.nodup, ht.keys, ht.value]

theorem sumFor_perm {rs1 rs2 : List (Word × Int)} (h : rs1.Perm rs2) (w : Word) :
    sumFor rs1 w = sumFor rs2 w :=
  ((h.filter _).map Prod.snd).sum_eq

theorem sumAll_perm {rs1 rs2 : List (Word × Int)} (h : rs1.Perm rs2) :
    sumAll rs1 = sumAll rs2 :=
  (h.map Prod.snd).sum_eq

theorem recordsRead_perm {dir1 dir2 : List DirEntry} (h : dir1.Perm dir2) :
    (recordsRead dir1).Perm (recordsRead dir2) :=
  (h.flatMap_right linesOf).filterMap recordOf

/-- Two listings of the same files leave the same entries in the map, up to
order. -/
theorem readDirectory_perm {dir1 dir2 : List DirEntry} (h : dir1.Perm dir2) :
    (readDirectory dir1).all_word_counts.Perm (readDirectory dir2).all_word_counts := by
  have h1 := readDirectory_tally dir1
  have h2 := readDirectory_tally dir2
  have hrs := recordsRead_perm h
  rw [List.perm_ext_iff_of_nodup (List.Nodup.of_map _ h1.nodup) (List.Nodup.of_map _ h2.nodup)]
  rintro ⟨w, c⟩
  rw [mem_readDirectory, mem_readDirectory, sumFor_perm hrs w, (hrs.map Prod.fst).mem_iff]

theorem counts_eq_of_perm {l1 l2 : List (Word × Int)} (h : l1.Perm l2)
    (h1 : l1.Pairwise (fun a b => b.2 ≤ a.2)) (h2 : l2.Pairwise (fun a b => b.2 ≤ a.2)) :
    l1.map Prod.snd = l2.map Prod.snd := by
  have hanti : IsAntisymm Int (fun a b => b ≤ a) := ⟨fun a b hab hba => le_antisymm hba hab⟩
  have s1 : (l1.map Prod.snd).Sorted (fun a b : Int => b ≤ a) := List.pairwise_map.2 h1
  have s2 : (l2.map Prod.snd).Sorted (fun a b : Int => b ≤ a) := List.pairwise_map.2 h2
  exact List.eq_of_perm_of_sorted (h.map Prod.snd) s1 s2

theorem split_at_tab (l : Word) (h : 9 ∈ l) :
    l = l.takeWhile (fun c => c != 9) ++ 9 :: (l.dropWhile (fun c => c != 9)).drop 1 ∧
    9 ∉ l.takeWhile (fun c => c != 9) := by
  induction l with
  | nil => simp at h
  | cons c l ih =>
    by_cases hc : c = 9
    · subst hc; simp
    · have hl : 9 ∈ l := by
        rcases List.mem_cons.1 h with h | h
        · exact absurd h.symm hc
        · exact h
      have hc2 : ¬ 9 = c := fun h => hc h.symm
      obtain ⟨h1, h2⟩ := ih hl
      simp only [List.takeWhile_cons, List.dropWhile_cons, bne_iff_ne, ne_eq, hc,
        not_false_eq_true, if_true, List.cons_append, List.mem_cons, hc2, false_or]
      exact ⟨congrArg _ h1, h2⟩

/-- A well-formed line is a token without a tab, a tab and a non-empty string
of digits, and `lineRecord` is that token with the value of those digits. -/
theorem wellFormedLine_shape (l : Word) (h : wellFormedLine l = true) :
    ∃ token digits, l = token ++ 9 :: digits ∧ 9 ∉ token ∧ digits ≠ [] ∧
      (∀ d ∈ digits, isdigit d = true) ∧ lineRecord l = (token, (digitsValue digits : Int)) := by
  simp only [wellFormedLine, Bool.and_eq_true, decide_eq_true_eq, Bool.not_eq_true',
    List.isEmpty_eq_false, List.all_eq_true] at h
  obtain ⟨⟨htab, hne⟩, hd⟩ := h
  obtain ⟨h1, h2⟩ := split_at_tab l htab
  exact ⟨_, _, h1, h2, hne, hd, rfl⟩

theorem recordOf_wellFormed (l : Word) (h : wellFormedLine l = true)
    (hmax : (lineRecord l).2 ≤ INT_MAX) : recordOf l = some (lineRecord l) := by
  obtain ⟨token, digits, hl, htok, hne, hd, hrec⟩ := wellFormedLine_shape l h
  rw [hrec] at hmax ⊢
  rw [recordOf, hl, parseLine_wellFormed token digits htok hne hd hmax]

theorem lineRecord_nonneg (l : Word) : 0 ≤ (lineRecord l).2 := Int.ofNat_nonneg _

theorem le_sumAll (rs : List (Word × Int)) (h : ∀ r ∈ rs, 0 ≤ r.2) :
    0 ≤ sumAll rs ∧ ∀ r ∈ rs, r.2 ≤ sumAll rs := by
  induction rs with
  | nil => simp [sumAll]
  | cons e rs ih =>
    obtain ⟨h0, hle⟩ := ih (fun r hr => h r (by simp [hr]))
    have he := h e (by simp)
    simp only [sumAll, List.map_cons, List.sum_cons] at h0 hle ⊢
    refine ⟨by omega, ?_⟩
    intro r hr
    rcases List.mem_cons.1 hr with rfl | hr
    · omega
    · have := hle r hr; omega

theorem sumFor_le_sumAll (rs : List (Word × Int)) (h : ∀ r ∈ rs, 0 ≤ r.2) (w : Word) :
    0 ≤ sumFor rs w ∧ sumFor rs w ≤ sumAll rs := by
  induction rs with
  | nil => simp [sumFor, sumAll]
  | cons e rs ih =>
    obtain ⟨h0, hle⟩ := ih (fun r hr => h r (by simp [hr]))
    have he := h e (by simp)
    simp only [sumFor, sumAll, List.map_cons, List.sum_cons, List.filter_cons] at h0 hle ⊢
    split
    · simp only [List.map_cons, List.sum_cons]; omega
    · omega

/-- When every line read is well formed and the counts add up to an `int`, the
records the aggregator adds are the records the lines state. -/
theorem recordsRead_stated (dir : List DirEntry)
    (hform : ∀ line ∈ linesRead dir, wellFormedLine line = true)
    (hrange : sumAll (statedRecords dir) ≤ INT_MAX) :
    recordsRead dir = statedRecords dir := by
  unfold recordsRead
  have hnn : ∀ r ∈ statedRecords dir, 0 ≤ r.2 := by
    intro r hr
    obtain ⟨l, -, rfl⟩ := List.mem_map.1 hr
    exact lineRecord_nonneg l
  have hle := (le_sumAll _ hnn).2
  have hall : ∀ l ∈ linesRead dir, recordOf l = some (lineRecord l) := by
    intro l hl
    apply recordOf_wellFormed l (hform l hl)
    exact le_trans (hle _ (List.mem_map_of_mem lineRecord hl)) hrange
  have : (linesRead dir).filterMap recordOf
      = (linesRead dir).filterMap (fun l => some (lineRecord l)) :=
    List.filterMap_congr hall
  rw [this]
  exact List.filterMap_eq_map lineRecord ▸ rfl

/-! ## C11: the aggregated report -/

/-- C11, counterexample: a directory whose only consumer output file holds no
line meets the claim's conditions (every line is well formed, the counts add
up to 0), yet the aggregator writes no report at all, whatever the library
does: lines 71-74 return before the report file is opened. -/
theorem no_report_without_records :
    (∀ line ∈ linesRead emptyOutputs, wellFormedLine line = true) ∧
    sumAll (statedRecords emptyOutputs) ≤ INT_MAX ∧
    ∀ L : Library, aggregate L emptyOutputs = none :=
  ⟨by decide, by decide, fun L => aggregate_none L emptyOutputs (by decide)⟩

/-- C11, amended: when the consumer output files hold at least one line, every
line has the form token, tab, decimal count, and the counts add up to an
`int`, the aggregator writes a report; it lists each distinct token once,
with the sum of that token's counts over all lines of all files, in
non-increasing order of count, and its total is the sum of all counts.  This
holds for every conforming iteration order of the map and every conforming
`std::sort`. -/
theorem aggregate_report (L : Library) (hL : L.Conforming) (dir : List DirEntry)
    (hform : ∀ line ∈ linesRead dir, wellFormedLine line = true)
    (hrange : sumAll (statedRecords dir) ≤ INT_MAX)
    (hline : linesRead dir ≠ []) :
    ∃ r, aggregate L dir = some r ∧ ReportOf r (statedRecords dir) := by
  have hrs := recordsRead_stated dir hform hrange
  have hne : recordsRead dir ≠ [] := by
    rw [hrs]; simpa [statedRecords] using hline
  obtain ⟨r, hr, hperm, hsorted, htotal, hunique⟩ := aggregate_some hL dir hne
  have ht := readDirectory_tally dir
  have hnn : ∀ r ∈ statedRecords dir, 0 ≤ r.2 := by
    intro r hr
    obtain ⟨l, -, rfl⟩ := List.mem_map.1 hr
    exact lineRecord_nonneg l
  refine ⟨r, hr, ?_, ?_, hsorted, ?_, hunique⟩
  · exact (hperm.map Prod.fst).nodup_iff.2 ht.nodup
  · intro w c
    rw [hperm.mem_iff, mem_readDirectory, hrs]
    obtain ⟨h0, h1⟩ := sumFor_le_sumAll _ hnn w
    rw [wrapInt_of_range h0 (le_trans h1 hrange)]
  · rw [htotal, ht.total, hrs]
    exact wrapInt_of_range (le_sumAll _ hnn).1 hrange

/-- C11, witness: the two files of `twoOutputs`, read with the map listed in
insertion order and a stable sort. -/
theorem aggregate_report_witness :
    ∃ r, aggregate insertionOrderLibrary twoOutputs = some r ∧
      ReportOf r (statedRecords twoOutputs) :=
  aggregate_report insertionOrderLibrary insertionOrderLibrary_conforming twoOutputs
    (by decide) (by decide) (by decide)

/-! ## C12: the report and the order of the directory -/

/-- C12, counterexample: the same two files, each with one token of count 1,
listed in the two possible orders.  With the map listed in insertion order the
report has `a` before `b` for one listing and `b` before `a` for the other;
with the map listed in reverse insertion order it is the other way round.
Both libraries conform to the standard: `cmp` compares counts only, so the
place of tokens with equal counts follows the order of the listing. -/
theorem tie_order_follows_listing :
    [fileA, fileB].Perm [fileB, fileA] ∧
    insertionOrderLibrary.Conforming ∧ reverseOrderLibrary.Conforming ∧
    aggregate insertionOrderLibrary [fileA, fileB]
      = some ⟨2, 2, [(ascii "a", 1), (ascii "b", 1)]⟩ ∧
    aggregate insertionOrderLibrary [fileB, fileA]
      = some ⟨2, 2, [(ascii "b", 1), (ascii "a", 1)]⟩ ∧
    aggregate reverseOrderLibrary [fileA, fileB]
      = some ⟨2, 2, [(ascii "b", 1), (ascii "a", 1)]⟩ ∧
    aggregate reverseOrderLibrary [fileB, fileA]
      = some ⟨2, 2, [(ascii "a", 1), (ascii "b", 1)]⟩ :=
  ⟨List.Perm.swap _ _ _, insertionOrderLibrary_conforming, reverseOrderLibrary_conforming,
    by decide, by decide, by decide, by decide⟩

/-- C12, amended: two runs over the same directory entries, listed in any two
orders and with any two conforming libraries, either both write no report or
both write one, and the two reports have the same number of unique words, the
same total, the same entries up to their order, and the same column of
counts: entries change place only among tokens with equal counts. -/
theorem reports_agree_up_to_ties (L1 L2 : Library) (h1 : L1.Conforming) (h2 : L2.Conforming)
    (dir1 dir2 : List DirEntry) (hperm : dir1.Perm dir2) :
    (aggregate L1 dir1 = none ∧ aggregate L2 dir2 = none) ∨
    ∃ r1 r2, aggregate L1 dir1 = some r1 ∧ aggregate L2 dir2 = some r2 ∧
      r1.unique_words = r2.unique_words ∧ r1.total = r2.total ∧
      r1.sorted_words.Perm r2.sorted_words ∧
      r1.sorted_words.map Prod.snd = r2.sorted_words.map Prod.snd := by
  have hrs := recordsRead_perm hperm
  by_cases hnil : recordsRead dir1 = []
  · have hnil2 : recordsRead dir2 = [] := by
      rw [hnil] at hrs; exact List.perm_nil.1 hrs.symm
    exact Or.inl ⟨aggregate_none L1 dir1 hnil, aggregate_none L2 dir2 hnil2⟩
  · have hne2 : recordsRead dir2 ≠ [] := by
      intro h; rw [h] at hrs; exact hnil (List.perm_nil.1 hrs)
    obtain ⟨r1, hr1, hp1, hs1, ht1, hu1⟩ := aggregate_some h1 dir1 hnil
    obtain ⟨r2, hr2, hp2, hs2, ht2, hu2⟩ := aggregate_some h2 dir2 hne2
    have hp : r1.sorted_words.Perm r2.sorted_words :=
      (hp1.trans (readDirectory_perm hperm)).trans hp2.symm
    refine Or.inr ⟨r1, r2, hr1, hr2, ?_, ?_, hp, counts_eq_of_perm hp hs1 hs2⟩
    · rw [hu1, hu2, hp.length_eq]
    · rw [ht1, ht2, (readDirectory_tally dir1).total, (readDirectory_tally dir2).total,
        sumAll_perm hrs]

/-- C12, witness: the two listings of `fileA` and `fileB`, one run with the map
listed in insertion order and one with it listed in reverse. -/
theorem reports_agree_up_to_ties_witness :
    (aggregate insertionOrderLibrary [fileA, fileB] = none ∧
      aggregate reverseOrderLibrary [fileB, fileA] = none) ∨
    ∃ r1 r2, aggregate insertionOrderLibrary [fileA, fileB] = some r1 ∧
      aggregate reverseOrderLibrary [fileB, fileA] = some r2 ∧
      r1.unique_words = r2.unique_words ∧ r1.total = r2.total ∧
      r1.sorted_words.Perm r2.sorted_words ∧
      r1.sorted_words.map Prod.snd = r2.sorted_words.map Prod.snd :=
  reports_agree_up_to_ties insertionOrderLibrary reverseOrderLibrary
    insertionOrderLibrary_conforming reverseOrderLibrary_conforming
    [fileA, fileB] [fileB, fileA] (List.Perm.swap _ _ _)

/-! ## C13: the file interface between consumer and aggregator -/

/-- C13: for every table of the consumer whose tokens are non-empty strings of
lowercase letters and digits and whose counts are positive values of type
`int`, the lines the aggregator reads from the file the consumer writes
(token, tab, count, newline for each entry) parse, line by line, to exactly
the pairs of the table: as many lines as entries, each a record with the
entry's token and count, none skipped as malformed or for its number. -/
theorem consumer_file_round_trip (wordCounts : List (Word × Nat))
    (htoken : ∀ e ∈ wordCounts, e.1 ≠ [] ∧ ∀ c ∈ e.1, isLowerOrDigit c = true)
    (hcount : ∀ e ∈ wordCounts, 0 < e.2 ∧ (e.2 : Int) ≤ INT_MAX) :
    (getlines (writeTable wordCounts)).map parseLine
      = wordCounts.map (fun e => Line.record e.1 (e.2 : Int)) := by
  apply parse_writeTable
  · intro e he
    exact ⟨fun h => (lowerOrDigit_not_control ((htoken e he).2 9 h)).1 rfl,
      fun h => (lowerOrDigit_not_control ((htoken e he).2 10 h)).2 rfl⟩
  · intro e he
    exact (hcount e he).2

/-- C13, witness: the table of scenario A. -/
theorem consumer_file_round_trip_witness :
    (getlines (writeTable expectedTableA)).map parseLine
      = expectedTableA.map (fun e => Line.record e.1 (e.2 : Int)) :=
  consumer_file_round_trip expectedTableA (by decide) (by decide)

/-! ## Interrupted waits in runs under the SIGINT handler -/

end WordCount
